import Mathlib

/-!
# Verification of the Minesweeper LP-solver core

A shallow embedding of the three source files of the repository
(`board.py`, `solver.py`, `game.py`) together with theorems settling the
specification claims about them.

Conventions of the embedding:
* Grids are total functions on natural-number coordinates; the Python lists
  are indexed `grid[y][x]`, here a grid function takes the column `x` first
  and the row `y` second.
* Python floats are modelled as exact rationals; the literal `1e-6` is
  modelled as `1/1000000`.
* The recursive flood fill of `Board.click` is modelled with an explicit
  fuel argument; `Board.click` supplies fuel `W*H + 1`, which is shown to
  be sufficient wherever a theorem needs it.
* `random.shuffle(candidates)` is modelled by quantifying over an arbitrary
  permutation of the candidate list.
* The cvxpy solve in `MinesweeperLPSolver.get_next` is external to the
  repository; its result (the value matrix `x.value`) enters the model as an
  oracle argument `e`.
-/

namespace MS

/-- Board state (`board.py`, class `Board`).  Field names follow the source:
`pressed`/`flagged`/`is_mine` grids, `neighboring_mine_count` (`counts`),
`_bombed` (`bombed`), `remaining` and `flags_remaining`. -/
structure Board where
  W : Nat
  H : Nat
  mine : Nat → Nat → Bool
  pressed : Nat → Nat → Bool
  flagged : Nat → Nat → Bool
  counts : Nat → Nat → Nat
  bombed : Bool
  remaining : Int
  flagsRemaining : Int

/-- The eight neighbor offsets, in the order the source enumerates them:
`[(x+1,y), (x+1,y+1), (x,y+1), (x-1,y+1), (x-1,y), (x-1,y-1), (x,y-1), (x+1,y-1)]`. -/
def neighborOffsets : List (Int × Int) :=
  [(1, 0), (1, 1), (0, 1), (-1, 1), (-1, 0), (-1, -1), (0, -1), (1, -1)]

/-- In-bounds 8-neighbors of a (possibly negative) integer coordinate, in
source enumeration order, as natural coordinates.  This models the
`for new_x, new_y in [...] : if 0 <= new_x < W and 0 <= new_y < H` pattern. -/
def intNbrs (W H : Nat) (x y : Int) : List (Nat × Nat) :=
  neighborOffsets.filterMap fun d =>
    let nx := x + d.1
    let ny := y + d.2
    if 0 ≤ nx ∧ nx < (W : Int) ∧ 0 ≤ ny ∧ ny < (H : Int) then
      some (nx.toNat, ny.toNat)
    else none

/-- In-bounds 8-neighbors of a natural coordinate. -/
def nbrs (W H x y : Nat) : List (Nat × Nat) :=
  intNbrs W H (x : Int) (y : Int)

/-- Mark a cell pressed and decrement `remaining`
(`self.pressed[y][x] = True; self.remaining = self.remaining - 1`). -/
def press (b : Board) (x y : Nat) : Board :=
  { b with
    pressed := fun u v => if u = x ∧ v = y then true else b.pressed u v,
    remaining := b.remaining - 1 }

/-- `Board.click` with fuel.  Faithful to `board.py` lines 164-199:
guard on `_bombed`/`pressed`/`flagged`, the mine branch returning the
`(x, y, -1)` sentinel, pressing before the cascade, and the recursion over
in-bounds neighbors of a zero-count cell accumulating all returned triples. -/
def clickFuel : Nat → Board → Nat → Nat → Board × List (Nat × Nat × Int)
  | 0, b, _, _ => (b, [])
  | fuel + 1, b, x, y =>
    if b.bombed || b.pressed x y || b.flagged x y then (b, [])
    else if b.mine x y then ({ b with bombed := true }, [(x, y, -1)])
    else
      let b1 := press b x y
      if b.counts x y = 0 then
        (nbrs b.W b.H x y).foldl
          (fun acc c =>
            let r := clickFuel fuel acc.1 c.1 c.2
            (r.1, acc.2 ++ r.2))
          (b1, [(x, y, (b.counts x y : Int))])
      else (b1, [(x, y, (b.counts x y : Int))])

/-- One step of the neighbor fold of `clickFuel`. -/
def clickStep (fuel : Nat) (acc : Board × List (Nat × Nat × Int)) (c : Nat × Nat) :
    Board × List (Nat × Nat × Int) :=
  let r := clickFuel fuel acc.1 c.1 c.2
  (r.1, acc.2 ++ r.2)

/-- Sequential clicks over a list of cells, threading the board and
accumulating the revealed triples (the cascade fold of `Board.click`). -/
def clickSeq (fuel : Nat) (st : Board × List (Nat × Nat × Int)) (cs : List (Nat × Nat)) :
    Board × List (Nat × Nat × Int) :=
  cs.foldl (clickStep fuel) st

/-- `Board.click`: the recursion depth of the source is bounded by the number
of unpressed cells, so fuel `W*H + 1` always suffices. -/
def click (b : Board) (x y : Nat) : Board × List (Nat × Nat × Int) :=
  clickFuel (b.W * b.H + 1) b x y

/-- `Board.flag` (`board.py` lines 201-219): no-op when bombed or pressed,
otherwise toggle the flag; `flags_remaining` gains 1 when the cell becomes
un-flagged and loses 1 when it becomes flagged. -/
def flag (b : Board) (x y : Nat) : Board :=
  if b.bombed || b.pressed x y then b
  else
    { b with
      flagged := fun u v => if u = x ∧ v = y then !b.flagged x y else b.flagged u v,
      flagsRemaining := b.flagsRemaining + (if b.flagged x y then 1 else -1) }

/-- `Board.has_won`: `self.remaining == 0`. -/
def has_won (b : Board) : Bool :=
  b.remaining == 0

/-- The candidate list `[(x, y) for x in range(W) for y in range(H)]`. -/
def candidates (W H : Nat) : List (Nat × Nat) :=
  (List.range W).flatMap fun x => (List.range H).map fun y => (x, y)

/-- The corner-exclusion test of `Board.create` line 107.  The Python
comparisons `y > H - 3` and `x > W - 3` are over ℤ; `y + 3 > H` is the
same condition expressed over ℕ. -/
def inCorner (W H x y : Nat) : Bool :=
  (x < 2 && y < 2) || (x < 2 && y + 3 > H) ||
  (x + 3 > W && y < 2) || (x + 3 > W && y + 3 > H)

/-- The mine-assignment loop of `Board.create` (lines 105-112), returning the
list of cells assigned a mine: corner cells are skipped, and the loop breaks
once the running count `a` reaches `m` (checked as `a + 1 = m` *after* the
increment, so `m = 0` never triggers the break). -/
def assignLoop (W H m : Nat) : List (Nat × Nat) → Nat → List (Nat × Nat)
  | [], _ => []
  | c :: rest, a =>
    if inCorner W H c.1 c.2 then assignLoop W H m rest a
    else if a + 1 = m then [c]
    else c :: assignLoop W H m rest (a + 1)

/-- Cells assigned a mine by `Board.create` for a given shuffle result. -/
def minePlaces (W H m : Nat) (perm : List (Nat × Nat)) : List (Nat × Nat) :=
  assignLoop W H m perm 0

/-- Number of in-bounds neighbors of `(x, y)` carrying a mine.  The source
computes `neighboring_mine_count` by incrementing the in-bounds neighbors of
each mine; since all mines are in bounds and adjacency is symmetric, the two
computations agree on every in-bounds cell. -/
def nbrMineCount (mine : Nat → Nat → Bool) (W H x y : Nat) : Nat :=
  ((nbrs W H x y).filter fun c => mine c.1 c.2).length

/-- `Board.create` (plus the relevant initialization of `Board.__init__`),
parameterized by the shuffled candidate order `perm`. -/
def create (W H m : Nat) (perm : List (Nat × Nat)) : Board :=
  let places := minePlaces W H m perm
  let mf : Nat → Nat → Bool := fun x y => decide ((x, y) ∈ places)
  { W := W, H := H
    mine := mf
    pressed := fun _ _ => false
    flagged := fun _ _ => false
    counts := fun x y => nbrMineCount mf W H x y
    bombed := false
    remaining := (W * H : Int) - m
    flagsRemaining := m }

/-- The number of non-corner cells of the candidate list: these are the cells
eligible to receive a mine. -/
def eligibleCount (W H : Nat) : Nat :=
  ((candidates W H).filter fun c => !inCorner W H c.1 c.2).length

/-- The in-bounds grid as a finite set. -/
def grid (W H : Nat) : Finset (Nat × Nat) :=
  Finset.range W ×ˢ Finset.range H

/-- Total number of mines on the board. -/
def mineTotal (b : Board) : Nat :=
  ((grid b.W b.H).filter fun c => b.mine c.1 c.2 = true).card

/-- Number of pressed (revealed) cells. -/
def pressedCard (b : Board) : Nat :=
  ((grid b.W b.H).filter fun c => b.pressed c.1 c.2 = true).card

/-- Number of unpressed cells: bounds the recursion depth of the cascade. -/
def unpressedCard (b : Board) : Nat :=
  ((grid b.W b.H).filter fun c => b.pressed c.1 c.2 = false).card

/-- Coordinates of a revealed-triples list. -/
def coords (l : List (Nat × Nat × Int)) : List (Nat × Nat) :=
  l.map fun t => (t.1, t.2.1)

/-- A board API call: reveal (`click`) or `flag`. -/
inductive Op where
  | clickOp (x y : Nat)
  | flagOp (x y : Nat)

/-- Apply one call to the board. -/
def applyOp (b : Board) : Op → Board
  | .clickOp x y => (click b x y).1
  | .flagOp x y => flag b x y

/-- Apply a sequence of calls. -/
def runOps (b : Board) (ops : List Op) : Board :=
  ops.foldl applyOp b

/-- The coordinates of a call are within the board bounds. -/
def opInBounds (W H : Nat) : Op → Prop
  | .clickOp x y => x < W ∧ y < H
  | .flagOp x y => x < W ∧ y < H

/-- The board counts are the ones derived from its mine grid, as `create`
computes them. -/
def consistentCounts (b : Board) : Prop :=
  ∀ x, x < b.W → ∀ y, y < b.H → b.counts x y = nbrMineCount b.mine b.W b.H x y

/-- Cells revealed by a cascade started at `(x, y)`: the least set containing
`(x, y)` and closed under stepping from a zero-count member to any in-bounds
neighbor that is neither already revealed nor flagged.  This is the flood
region reachable *through unrevealed, unflagged zero-count cells*, together
with its unrevealed, unflagged border. -/
inductive ReachZ (b : Board) (x y : Nat) : Nat → Nat → Prop where
  | base : ReachZ b x y x y
  | step {cx cy nx ny : Nat} : ReachZ b x y cx cy → b.counts cx cy = 0 →
      (nx, ny) ∈ nbrs b.W b.H cx cy → b.pressed nx ny = false →
      b.flagged nx ny = false → ReachZ b x y nx ny

/-- The claimed reveal set of the specification sentence for flood fill: the
maximal 8-connected region of zero-count cells containing `(x, y)` together
with the cells bordering it, with no regard to flags or prior reveals along
the way. -/
inductive ZeroPath (b : Board) (x y : Nat) : Nat → Nat → Prop where
  | base : ZeroPath b x y x y
  | step {cx cy nx ny : Nat} : ZeroPath b x y cx cy → b.counts cx cy = 0 →
      (nx, ny) ∈ nbrs b.W b.H cx cy → ZeroPath b x y nx ny

/-! ## The constraint solver (`solver.py`, class `MinesweeperLPSolver`) -/

/-- The comparison tolerance `1e-6` of `get_next`, modelled exactly. -/
def eps : ℚ := 1 / 1000000

/-- A linear constraint of the cvxpy problem, kept symbolically. -/
inductive LPCon where
  | totalSum (m : Nat)
  | boxLower
  | boxUpper
  | nbrSum (cells : List (Nat × Nat)) (total : Int)
  | cellZero (i j : Nat)
deriving DecidableEq

/-- Solver state.  `last_solution`, `clicked`, `flagged` and `constraints`
follow `solver.py`; the board is only consulted for its dimensions and mine
count, which are copied here. -/
structure Solver where
  W : Nat
  H : Nat
  mines : Nat
  last_solution : Nat → Nat → ℚ
  clicked : Finset (Nat × Nat)
  flagged : Finset (Nat × Nat)
  constraints : List LPCon

/-- `MinesweeperLPSolver.__init__`: the uniform initial `last_solution`
value is `mines / (H * W)`. -/
def initSolver (W H m : Nat) : Solver where
  W := W
  H := H
  mines := m
  last_solution := fun _ _ => (m : ℚ) / ((H : ℚ) * (W : ℚ))
  clicked := ∅
  flagged := ∅
  constraints := [.totalSum m, .boxLower, .boxUpper]

/-- The traversal order of the double loop of `get_next`:
`for i in range(W): for j in range(H)` — the same order as `candidates`. -/
def cellOrder (W H : Nat) : List (Nat × Nat) :=
  candidates W H

/-- Result of the scanning loop of `get_next`: either the early singleton
return of the stability check, or the final candidate lists. -/
inductive AuxRes where
  | early (c : Nat × Nat)
  | normal (zp op : List (Nat × Nat))
deriving DecidableEq

/-- The cell-scanning loop of `get_next` (`solver.py` lines 71-91).
State: remaining cells, `min_prob`, `zero_pos`, `one_pos`.  For a cell not
yet clicked: the stability check returns immediately; a strictly smaller
estimate resets `zero_pos` and `continue`s; a tie appends and `continue`s;
otherwise control falls through to the flag check, which is also reached
directly for already-clicked cells. -/
def getNextAux (s : Solver) (e : Nat → Nat → ℚ) :
    List (Nat × Nat) → ℚ → List (Nat × Nat) → List (Nat × Nat) → AuxRes
  | [], _, zp, op => .normal zp op
  | c :: rest, mp, zp, op =>
    if c ∉ s.clicked then
      if |e c.1 c.2 - s.last_solution c.1 c.2| < eps then .early c
      else if e c.1 c.2 < mp then getNextAux s e rest (e c.1 c.2) [c] op
      else if |e c.1 c.2 - mp| < eps then getNextAux s e rest mp (zp ++ [c]) op
      else if c ∉ s.flagged ∧ |e c.1 c.2 - 1| < eps then
        getNextAux s e rest mp zp (op ++ [c])
      else getNextAux s e rest mp zp op
    else if c ∉ s.flagged ∧ |e c.1 c.2 - 1| < eps then
      getNextAux s e rest mp zp (op ++ [c])
    else getNextAux s e rest mp zp op

/-- `MinesweeperLPSolver.get_next`, with the solved value matrix `x.value`
passed in as the oracle `e`.  Returns the updated solver state together with
the `zero_pos` and `one_pos` lists. -/
def get_next (s : Solver) (e : Nat → Nat → ℚ) :
    Solver × List (Nat × Nat) × List (Nat × Nat) :=
  match getNextAux s e (cellOrder s.W s.H) 1 [] [] with
  | .early c => ({ s with clicked := insert c s.clicked }, [c], [])
  | .normal zp op =>
    ({ s with clicked := s.clicked ∪ zp.toFinset, flagged := s.flagged ∪ op.toFinset },
      zp, op)

/-- The running minimum of the scanning loop over a list of already-visited
cells, starting from `start`: only cells outside `clicked` with a strictly
smaller estimate lower it (a specification-side recomputation, used to state
which cells reach the flag check). -/
def minBefore (s : Solver) (e : Nat → Nat → ℚ) (l : List (Nat × Nat)) (start : ℚ) : ℚ :=
  l.foldl (fun mp c => if c ∉ s.clicked ∧ e c.1 c.2 < mp then e c.1 c.2 else mp) start

/-- The neighbor list of `add_constraint` (`solver.py` line 116): the
in-bounds cells of the 3×3 block around `(i, j)` other than `(i, j)` itself
that are not in `clicked`.  The Python ranges `range(i-1, i+2)` are over ℤ. -/
def conNbrs (s : Solver) (i j : Nat) : List (Nat × Nat) :=
  (([(i : Int) - 1, (i : Int), (i : Int) + 1].flatMap fun x =>
      [(j : Int) - 1, (j : Int), (j : Int) + 1].map fun y => (x, y))).filterMap
    fun p =>
      if 0 ≤ p.1 ∧ 0 ≤ p.2 ∧ p.1 < (s.W : Int) ∧ p.2 < (s.H : Int) ∧
          (p.1 ≠ (i : Int) ∨ p.2 ≠ (j : Int)) ∧ (p.1.toNat, p.2.toNat) ∉ s.clicked then
        some (p.1.toNat, p.2.toNat)
      else none

/-- `MinesweeperLPSolver.add_constraint`: appends the neighborhood-sum
constraint and the `x[i, j] == 0` constraint. -/
def add_constraint (s : Solver) (i j : Nat) (mc : Int) : Solver :=
  { s with constraints := s.constraints ++ [.nbrSum (conNbrs s i j) mc, .cellZero i j] }

/-! ## The orchestrator (`game.py`, `Game.on_loop`) -/

/-- The observable outcome of one round of `Game.on_loop`: the boards and
solver after the round, the list of `(i, j, mine_count)` arguments passed to
`add_constraint` during the round, and the `_running` flag. -/
structure RoundOut where
  board : Board
  solver : Solver
  calls : List (Nat × Nat × Int)
  running : Bool

/-- The reveal half of the round: for each cell of the click list, click it
and pass every returned triple to `add_constraint`, accumulating the list of
calls made. -/
def revealLoop (st : Board × Solver × List (Nat × Nat × Int)) (clicks : List (Nat × Nat)) :
    Board × Solver × List (Nat × Nat × Int) :=
  clicks.foldl
    (fun st c =>
      let r := click st.1 c.1 c.2
      (r.1, r.2.foldl (fun s t => add_constraint s t.1 t.2.1 t.2.2) st.2.1,
        st.2.2 ++ r.2))
    st

/-- The boards and triples produced by clicking each cell of a list in turn
(an independent restatement of the reveal traversal, used to state what the
round reveals). -/
def roundReveals (b : Board) (clicks : List (Nat × Nat)) :
    Board × List (Nat × Nat × Int) :=
  clicks.foldl (fun st c => let r := click st.1 c.1 c.2; (r.1, st.2 ++ r.2)) (b, [])

/-- `Game.on_loop`: if the board is already bombed the game stops
(`_running = False`) and nothing else happens; otherwise the solver decides,
every click is applied with all returned triples fed to `add_constraint`,
and every flag decision is applied to the board. -/
def onLoop (b : Board) (s : Solver) (e : Nat → Nat → ℚ) : RoundOut :=
  if b.bombed then ⟨b, s, [], false⟩
  else
    let d := get_next s e
    let rl := revealLoop (b, d.1, []) d.2.1
    let b2 := d.2.2.foldl (fun bb c => flag bb c.1 c.2) rl.1
    ⟨b2, rl.2.1, rl.2.2, true⟩

/-! ## Python list indexing (`grid[y][x]` with negative wrap-around) -/

/-- Python list indexing: `l[i]` for `0 ≤ i < n` is `l[i]`; for
`-n ≤ i < 0` it is `l[n + i]`; anything else raises `IndexError` (`none`). -/
def pyIdx (n : Nat) (i : Int) : Option Nat :=
  if 0 ≤ i ∧ i < (n : Int) then some i.toNat
  else if -(n : Int) ≤ i ∧ i < 0 then some ((n : Int) + i).toNat
  else none

/-- `Board.flag` as called with raw (possibly negative or too large) integer
coordinates: the `_bombed` check short-circuits before any indexing; then
`pressed[y][x]` and `flagged[y][x]` are indexed with Python semantics. -/
def pyFlag (b : Board) (x y : Int) : Option Board :=
  if b.bombed then some b
  else
    match pyIdx b.H y with
    | none => none
    | some yi =>
      match pyIdx b.W x with
      | none => none
      | some xi => some (flag b xi yi)

/-- `Board.click` as called with raw integer coordinates.  The guards index
with Python semantics; a press operates on the wrapped cell, while the
returned root triple carries the raw coordinates and the cascade enumerates
neighbors of the raw coordinates (in-bounds neighbors are ordinary natural
coordinates, so the recursion proceeds with the in-bounds model). -/
def pyClick (b : Board) (x y : Int) : Option (Board × List (Int × Int × Int)) :=
  if b.bombed then some (b, [])
  else
    match pyIdx b.H y with
    | none => none
    | some yi =>
      match pyIdx b.W x with
      | none => none
      | some xi =>
        if b.pressed xi yi || b.flagged xi yi then some (b, [])
        else if b.mine xi yi then some ({ b with bombed := true }, [(x, y, -1)])
        else
          let b1 := press b xi yi
          if b.counts xi yi = 0 then
            let r := clickSeq (b.W * b.H + 1) (b1, []) (intNbrs b.W b.H x y)
            some (r.1, (x, y, (b.counts xi yi : Int)) ::
              r.2.map fun t => ((t.1 : Int), (t.2.1 : Int), t.2.2))
          else some (b1, [(x, y, (b.counts xi yi : Int))])

/-- Wrap a Python index known to be in the valid range into the natural
coordinate it designates. -/
def wrapIdx (n : Nat) (i : Int) : Nat :=
  if i < 0 then ((n : Int) + i).toNat else i.toNat

/-! ## Basic facts about the click recursion -/

theorem clickFuel_succ (f : Nat) (b : Board) (x y : Nat) :
    clickFuel (f + 1) b x y =
      if b.bombed || b.pressed x y || b.flagged x y then (b, [])
      else if b.mine x y then ({ b with bombed := true }, [(x, y, -1)])
      else if b.counts x y = 0 then
        clickSeq f (press b x y, [(x, y, (b.counts x y : Int))]) (nbrs b.W b.H x y)
      else (press b x y, [(x, y, (b.counts x y : Int))]) :=
  rfl

theorem clickSeq_nil (f : Nat) (st : Board × List (Nat × Nat × Int)) :
    clickSeq f st [] = st :=
  rfl

theorem clickSeq_cons (f : Nat) (st : Board × List (Nat × Nat × Int)) (c : Nat × Nat)
    (cs : List (Nat × Nat)) :
    clickSeq f st (c :: cs) = clickSeq f (clickStep f st c) cs :=
  rfl

theorem clickStep_eq (f : Nat) (st : Board × List (Nat × Nat × Int)) (c : Nat × Nat) :
    clickStep f st c =
      ((clickFuel f st.1 c.1 c.2).1, st.2 ++ (clickFuel f st.1 c.1 c.2).2) :=
  rfl

/-- Accumulator normalization for `clickSeq`. -/
theorem clickSeq_acc (f : Nat) (cs : List (Nat × Nat)) :
    ∀ b acc, clickSeq f (b, acc) cs =
      ((clickSeq f (b, []) cs).1, acc ++ (clickSeq f (b, []) cs).2) := by
  induction cs with
  | nil => intro b acc; simp [clickSeq_nil]
  | cons c cs ih =>
    intro b acc
    rw [clickSeq_cons, clickSeq_cons, clickStep_eq, clickStep_eq]
    rw [ih ((clickFuel f b c.1 c.2).1) (acc ++ (clickFuel f b c.1 c.2).2),
      ih ((clickFuel f b c.1 c.2).1) ([] ++ (clickFuel f b c.1 c.2).2)]
    simp

/-- Evolution relation between an input board and any board the click
recursion can produce from it: the static fields are unchanged, pressed
cells stay pressed, and bombing is monotone. -/
def Ext (b b' : Board) : Prop :=
  b'.W = b.W ∧ b'.H = b.H ∧ b'.mine = b.mine ∧ b'.flagged = b.flagged ∧
  b'.counts = b.counts ∧ (∀ u v, b.pressed u v = true → b'.pressed u v = true) ∧
  (b.bombed = true → b'.bombed = true)

theorem ext_refl (b : Board) : Ext b b :=
  ⟨rfl, rfl, rfl, rfl, rfl, fun _ _ h => h, fun h => h⟩

theorem ext_trans {a b c : Board} (h1 : Ext a b) (h2 : Ext b c) : Ext a c :=
  ⟨h2.1.trans h1.1, h2.2.1.trans h1.2.1, h2.2.2.1.trans h1.2.2.1,
    h2.2.2.2.1.trans h1.2.2.2.1, h2.2.2.2.2.1.trans h1.2.2.2.2.1,
    fun u v h => h2.2.2.2.2.2.1 u v (h1.2.2.2.2.2.1 u v h),
    fun h => h2.2.2.2.2.2.2 (h1.2.2.2.2.2.2 h)⟩

theorem ext_press (b : Board) (x y : Nat) : Ext b (press b x y) := by
  refine ⟨rfl, rfl, rfl, rfl, rfl, fun u v h => ?_, fun h => h⟩
  simp only [press]
  split <;> simp [h]

theorem ext_bombed_set (b : Board) : Ext b { b with bombed := true } :=
  ⟨rfl, rfl, rfl, rfl, rfl, fun _ _ h => h, fun _ => rfl⟩

theorem clickSeq_ext_of (f : Nat)
    (hf : ∀ b x y, Ext b (clickFuel f b x y).1) :
    ∀ (cs : List (Nat × Nat)) (st : Board × List (Nat × Nat × Int)),
      Ext st.1 (clickSeq f st cs).1 := by
  intro cs
  induction cs with
  | nil => intro st; exact ext_refl _
  | cons c cs ih =>
    intro st
    rw [clickSeq_cons]
    exact ext_trans (by rw [clickStep_eq]; exact hf st.1 c.1 c.2) (ih _)

theorem clickFuel_ext : ∀ (f : Nat) (b : Board) (x y : Nat),
    Ext b (clickFuel f b x y).1 := by
  intro f
  induction f with
  | zero => intro b x y; exact ext_refl _
  | succ f ih =>
    intro b x y
    rw [clickFuel_succ]
    split
    · exact ext_refl _
    · split
      · exact ext_bombed_set _
      · split
        · exact ext_trans (ext_press b x y)
            (clickSeq_ext_of f ih (nbrs b.W b.H x y) _)
        · exact ext_press b x y

theorem clickSeq_ext (f : Nat) (cs : List (Nat × Nat))
    (st : Board × List (Nat × Nat × Int)) : Ext st.1 (clickSeq f st cs).1 :=
  clickSeq_ext_of f (clickFuel_ext f) cs st

theorem click_ext (b : Board) (x y : Nat) : Ext b (click b x y).1 :=
  clickFuel_ext _ b x y

/-- A bombed board is terminal for `click`. -/
theorem clickFuel_bombed (f : Nat) (b : Board) (x y : Nat) (h : b.bombed = true) :
    clickFuel f b x y = (b, []) := by
  cases f with
  | zero => rfl
  | succ f => rw [clickFuel_succ]; simp [h]

/-- A bombed board is terminal for `flag`. -/
theorem flag_bombed (b : Board) (x y : Nat) (h : b.bombed = true) :
    flag b x y = b := by
  rw [flag]; simp [h]

theorem flag_ext_static (b : Board) (x y : Nat) :
    (flag b x y).W = b.W ∧ (flag b x y).H = b.H ∧ (flag b x y).mine = b.mine ∧
    (flag b x y).pressed = b.pressed ∧ (flag b x y).counts = b.counts ∧
    (flag b x y).bombed = b.bombed ∧ (flag b x y).remaining = b.remaining := by
  rw [flag]; split <;> simp

/-! ## Geometry of the neighbor list -/

theorem nbrs_bounds {W H x y : Nat} {c : Nat × Nat} (h : c ∈ nbrs W H x y) :
    c.1 < W ∧ c.2 < H := by
  simp only [nbrs, intNbrs, List.mem_filterMap] at h
  obtain ⟨d, _, hd⟩ := h
  split at hd
  · rename_i hcond
    cases hd
    exact ⟨by omega, by omega⟩
  · cases hd

/-- A zero-count cell of a consistent board has no mine among its in-bounds
neighbors. -/
theorem zero_no_mine {b : Board} (hc : consistentCounts b) {x y : Nat}
    (hx : x < b.W) (hy : y < b.H) (h0 : b.counts x y = 0) :
    ∀ c ∈ nbrs b.W b.H x y, b.mine c.1 c.2 = false := by
  intro c hmem
  have := hc x hx y hy
  rw [h0] at this
  have hfilter := (List.length_eq_zero.mp this.symm)
  have := List.filter_eq_nil_iff.mp hfilter c hmem
  simpa using this

theorem press_pressed (b : Board) (x y u v : Nat) :
    (press b x y).pressed u v = true ↔ ((u, v) = (x, y) ∨ b.pressed u v = true) := by
  simp only [press]
  split
  · rename_i h
    simp [Prod.ext_iff, h.1, h.2]
  · rename_i h
    constructor
    · intro hp; exact Or.inr hp
    · rintro (hp | hp)
      · exact absurd ⟨congrArg Prod.fst hp, congrArg Prod.snd hp⟩ h
      · exact hp

theorem consistent_of_ext {b b' : Board} (he : Ext b b') (hc : consistentCounts b) :
    consistentCounts b' := by
  intro x hx y hy
  rw [he.1] at hx
  rw [he.2.1] at hy
  have := hc x hx y hy
  rw [he.1, he.2.1, he.2.2.1, he.2.2.2.2.1, this]

/-- The conclusions of a successful (never-bombing) click call: the board
stays un-bombed, the newly pressed cells are exactly the coordinates of the
returned triples, those coordinates are distinct, fresh, unflagged,
mine-free and in bounds, every triple carries the cell's neighbor count, and
`remaining` drops by the number of triples. -/
def OutSpec (b b' : Board) (l : List (Nat × Nat × Int)) : Prop :=
  b'.bombed = false ∧
  (∀ u v, b'.pressed u v = true ↔ (b.pressed u v = true ∨ (u, v) ∈ coords l)) ∧
  (coords l).Nodup ∧
  (∀ c ∈ coords l, b.pressed c.1 c.2 = false ∧ b.flagged c.1 c.2 = false ∧
      b.mine c.1 c.2 = false ∧ c.1 < b.W ∧ c.2 < b.H) ∧
  (∀ t ∈ l, t.2.2 = (b.counts t.1 t.2.1 : Int)) ∧
  b'.remaining = b.remaining - l.length

theorem coords_append (l1 l2 : List (Nat × Nat × Int)) :
    coords (l1 ++ l2) = coords l1 ++ coords l2 := by
  simp [coords]

theorem outSpec_nil (b : Board) (h : b.bombed = false) : OutSpec b b [] := by
  refine ⟨h, fun u v => ?_, ?_, ?_, ?_, ?_⟩ <;> simp [coords]

theorem outSpec_comp {b bm b' : Board} {l1 l2 : List (Nat × Nat × Int)}
    (hext : Ext b bm) (h1 : OutSpec b bm l1) (h2 : OutSpec bm b' l2) :
    OutSpec b b' (l1 ++ l2) := by
  obtain ⟨hb1, hp1, hnd1, hfr1, hct1, hr1⟩ := h1
  obtain ⟨hb2, hp2, hnd2, hfr2, hct2, hr2⟩ := h2
  refine ⟨hb2, ?_, ?_, ?_, ?_, ?_⟩
  · intro u v
    rw [coords_append]
    rw [hp2, hp1]
    simp [or_assoc]
  · rw [coords_append]
    refine List.Nodup.append hnd1 hnd2 ?_
    intro c hc1 hc2
    have hpm : bm.pressed c.1 c.2 = true := by
      rw [hp1 c.1 c.2]; right; simpa using hc1
    have := (hfr2 c hc2).1
    rw [this] at hpm
    cases hpm
  · intro c hc
    rw [coords_append, List.mem_append] at hc
    cases hc with
    | inl h => exact hfr1 c h
    | inr h =>
      obtain ⟨hpm, hfl, hmi, hw, hh⟩ := hfr2 c h
      refine ⟨?_, ?_, ?_, ?_, ?_⟩
      · by_contra hcon
        have : b.pressed c.1 c.2 = true := by
          cases hb : b.pressed c.1 c.2
          · exact absurd hb hcon
          · rfl
        have := hext.2.2.2.2.2.1 c.1 c.2 this
        rw [this] at hpm; cases hpm
      · rw [← hfl, hext.2.2.2.1]
      · rw [← hmi, hext.2.2.1]
      · rw [← hext.1]; exact hw
      · rw [← hext.2.1]; exact hh
  · intro t ht
    rw [List.mem_append] at ht
    cases ht with
    | inl h => exact hct1 t h
    | inr h => rw [hct2 t h, hext.2.2.2.2.1]
  · rw [hr2, hr1]
    simp only [List.length_append]
    push_cast
    ring

/-- `OutSpec` for a single fresh non-mine press with no cascade. -/
theorem outSpec_press (b : Board) (x y : Nat) (hbomb : b.bombed = false)
    (hp : b.pressed x y = false) (hfl : b.flagged x y = false)
    (hm : b.mine x y = false) (hx : x < b.W) (hy : y < b.H) :
    OutSpec b (press b x y) [(x, y, (b.counts x y : Int))] := by
  refine ⟨hbomb, ?_, ?_, ?_, ?_, ?_⟩
  · intro u v
    rw [press_pressed]
    simp only [coords, List.map_cons, List.map_nil, List.mem_singleton, Prod.ext_iff]
    tauto
  · simp [coords]
  · intro c hc
    simp only [coords, List.map_cons, List.map_nil, List.mem_singleton] at hc
    subst hc
    exact ⟨hp, hfl, hm, hx, hy⟩
  · intro t ht
    simp only [List.mem_singleton] at ht
    subst ht
    rfl
  · simp [press]

theorem clickSeq_outSpec_of (f : Nat)
    (hf : ∀ b x y, b.bombed = false → consistentCounts b → x < b.W → y < b.H →
      (b.pressed x y = true ∨ b.flagged x y = true ∨ b.mine x y = false) →
      OutSpec b (clickFuel f b x y).1 (clickFuel f b x y).2) :
    ∀ (cs : List (Nat × Nat)) (b : Board), b.bombed = false → consistentCounts b →
      (∀ c ∈ cs, c.1 < b.W ∧ c.2 < b.H ∧
        (b.pressed c.1 c.2 = true ∨ b.flagged c.1 c.2 = true ∨ b.mine c.1 c.2 = false)) →
      OutSpec b (clickSeq f (b, []) cs).1 (clickSeq f (b, []) cs).2 := by
  intro cs
  induction cs with
  | nil => intro b hb _ _; rw [clickSeq_nil]; exact outSpec_nil b hb
  | cons c cs ih =>
    intro b hb hc htargets
    have hhead := htargets c (List.mem_cons_self c cs)
    have h1 : OutSpec b (clickFuel f b c.1 c.2).1 (clickFuel f b c.1 c.2).2 :=
      hf b c.1 c.2 hb hc hhead.1 hhead.2.1 hhead.2.2
    have hext : Ext b (clickFuel f b c.1 c.2).1 := clickFuel_ext f b c.1 c.2
    have h2 : OutSpec (clickFuel f b c.1 c.2).1
        (clickSeq f ((clickFuel f b c.1 c.2).1, []) cs).1
        (clickSeq f ((clickFuel f b c.1 c.2).1, []) cs).2 := by
      refine ih (clickFuel f b c.1 c.2).1 h1.1 (consistent_of_ext hext hc) ?_
      intro d hd
      have := htargets d (List.mem_cons_of_mem c hd)
      refine ⟨by rw [hext.1]; exact this.1, by rw [hext.2.1]; exact this.2.1, ?_⟩
      rcases this.2.2 with hpr | hfl | hmi
      · exact Or.inl (hext.2.2.2.2.2.1 d.1 d.2 hpr)
      · exact Or.inr (Or.inl (by rw [hext.2.2.2.1]; exact hfl))
      · exact Or.inr (Or.inr (by rw [hext.2.2.1]; exact hmi))
    have hrw : clickSeq f (b, []) (c :: cs) =
        ((clickSeq f ((clickFuel f b c.1 c.2).1, []) cs).1,
          (clickFuel f b c.1 c.2).2 ++
            (clickSeq f ((clickFuel f b c.1 c.2).1, []) cs).2) := by
      rw [clickSeq_cons, clickStep_eq]
      simp only [List.nil_append]
      exact clickSeq_acc f cs _ _
    rw [hrw]
    exact outSpec_comp hext h1 h2

theorem clickFuel_outSpec : ∀ (f : Nat) (b : Board) (x y : Nat),
    b.bombed = false → consistentCounts b → x < b.W → y < b.H →
    (b.pressed x y = true ∨ b.flagged x y = true ∨ b.mine x y = false) →
    OutSpec b (clickFuel f b x y).1 (clickFuel f b x y).2 := by
  intro f
  induction f with
  | zero => intro b x y hb _ _ _ _; exact outSpec_nil b hb
  | succ f ih =>
    intro b x y hb hc hx hy hsafe
    rw [clickFuel_succ]
    split
    · exact outSpec_nil b hb
    · rename_i hguard
      rw [hb] at hguard
      simp only [Bool.false_or, Bool.or_eq_true] at hguard
      push_neg at hguard
      have hp : b.pressed x y = false := by
        cases h : b.pressed x y
        · rfl
        · exact absurd h hguard.1
      have hfl : b.flagged x y = false := by
        cases h : b.flagged x y
        · rfl
        · exact absurd h hguard.2
      have hm : b.mine x y = false := by
        rcases hsafe with h | h | h
        · rw [h] at hp; cases hp
        · rw [h] at hfl; cases hfl
        · exact h
      split
      · rename_i hmine
        rw [hm] at hmine; cases hmine
      · split
        · rename_i hzero
          have hps : OutSpec b (press b x y) [(x, y, (b.counts x y : Int))] :=
            outSpec_press b x y hb hp hfl hm hx hy
          have hextp : Ext b (press b x y) := ext_press b x y
          have hseq : OutSpec (press b x y)
              (clickSeq f (press b x y, []) (nbrs b.W b.H x y)).1
              (clickSeq f (press b x y, []) (nbrs b.W b.H x y)).2 := by
            refine clickSeq_outSpec_of f ih (nbrs b.W b.H x y) (press b x y)
              hb (consistent_of_ext hextp hc) ?_
            intro c hcmem
            have hbd := nbrs_bounds hcmem
            refine ⟨hbd.1, hbd.2, Or.inr (Or.inr ?_)⟩
            exact zero_no_mine hc hx hy hzero c hcmem
          have hrw : clickSeq f (press b x y, [(x, y, (b.counts x y : Int))])
              (nbrs b.W b.H x y) =
              ((clickSeq f (press b x y, []) (nbrs b.W b.H x y)).1,
                [(x, y, (b.counts x y : Int))] ++
                  (clickSeq f (press b x y, []) (nbrs b.W b.H x y)).2) :=
            clickSeq_acc f _ _ _
          rw [hrw]
          exact outSpec_comp hextp hps hseq
        · exact outSpec_press b x y hb hp hfl hm hx hy

/-! ## Fuel sufficiency: the number of unpressed cells bounds the recursion -/

theorem mem_grid {W H : Nat} {c : Nat × Nat} : c ∈ grid W H ↔ c.1 < W ∧ c.2 < H := by
  simp [grid, Finset.mem_product]

theorem unpressed_press {b : Board} {x y : Nat} (hx : x < b.W) (hy : y < b.H)
    (hp : b.pressed x y = false) :
    unpressedCard (press b x y) < unpressedCard b := by
  have hset : ((grid (press b x y).W (press b x y).H).filter
      fun c => (press b x y).pressed c.1 c.2 = false) =
      ((grid b.W b.H).filter fun c => b.pressed c.1 c.2 = false).erase (x, y) := by
    ext c
    simp only [Finset.mem_erase, Finset.mem_filter]
    have hWH : (press b x y).W = b.W ∧ (press b x y).H = b.H := ⟨rfl, rfl⟩
    rw [hWH.1, hWH.2]
    constructor
    · intro ⟨hg, hpc⟩
      have : ¬ ((c.1, c.2) = (x, y) ∨ b.pressed c.1 c.2 = true) := by
        intro hor
        have := (press_pressed b x y c.1 c.2).mpr hor
        rw [this] at hpc; cases hpc
      push_neg at this
      refine ⟨?_, hg, ?_⟩
      · intro hEq; exact this.1 (by rw [hEq])
      · cases hb : b.pressed c.1 c.2
        · rfl
        · exact absurd hb this.2
    · intro ⟨hne, hg, hpc⟩
      refine ⟨hg, ?_⟩
      cases hb : (press b x y).pressed c.1 c.2
      · rfl
      · exfalso
        rcases (press_pressed b x y c.1 c.2).mp hb with h | h
        · exact hne (by rw [← h])
        · rw [h] at hpc; cases hpc
  have hmem : (x, y) ∈ (grid b.W b.H).filter fun c => b.pressed c.1 c.2 = false := by
    rw [Finset.mem_filter]
    exact ⟨mem_grid.mpr ⟨hx, hy⟩, hp⟩
  rw [unpressedCard, hset, Finset.card_erase_of_mem hmem, unpressedCard]
  have hpos : 0 < ((grid b.W b.H).filter fun c => b.pressed c.1 c.2 = false).card :=
    Finset.card_pos.mpr ⟨(x, y), hmem⟩
  omega

theorem unpressed_mono {b b' : Board} (he : Ext b b') :
    unpressedCard b' ≤ unpressedCard b := by
  rw [unpressedCard, unpressedCard, he.1, he.2.1]
  apply Finset.card_le_card
  intro c hc
  rw [Finset.mem_filter] at hc ⊢
  refine ⟨hc.1, ?_⟩
  cases hb : b.pressed c.1 c.2
  · rfl
  · have := he.2.2.2.2.2.1 c.1 c.2 hb
    rw [this] at hc
    exact hc.2

theorem unpressed_le (b : Board) : unpressedCard b ≤ b.W * b.H := by
  rw [unpressedCard]
  calc ((grid b.W b.H).filter fun c => b.pressed c.1 c.2 = false).card
      ≤ (grid b.W b.H).card := Finset.card_filter_le _ _
    _ = b.W * b.H := by simp [grid]

/-- A fresh, unflagged, non-mine target (or an already pressed one) ends up
pressed after a click with positive fuel. -/
theorem clickFuel_press_target : ∀ (f : Nat) (b : Board) (x y : Nat), 0 < f →
    b.bombed = false →
    (b.pressed x y = true ∨ (b.flagged x y = false ∧ b.mine x y = false)) →
    (clickFuel f b x y).1.pressed x y = true := by
  intro f b x y hf hb hsafe
  cases f with
  | zero => omega
  | succ f =>
    rw [clickFuel_succ]
    split
    · rename_i hguard
      rw [hb] at hguard
      simp only [Bool.false_or, Bool.or_eq_true] at hguard
      rcases hsafe with hpr | ⟨hfl, _⟩
      · exact hpr
      · rcases hguard with h | h
        · exact h
        · rw [hfl] at h; cases h
    · rename_i hguard
      have hp : b.pressed x y = false := by
        cases h : b.pressed x y
        · rfl
        · exact absurd (by simp [h]) hguard
      rcases hsafe with hpr | ⟨hfl, hm⟩
      · rw [hpr] at hp; cases hp
      · rw [hm]
        simp only [Bool.false_eq_true, if_false]
        have hpressed1 : (press b x y).pressed x y = true :=
          (press_pressed b x y x y).mpr (Or.inl rfl)
        split
        · exact (clickSeq_ext _ _ _).2.2.2.2.2.1 x y hpressed1
        · exact hpressed1

/-- Closure of the cascade: if the call presses a zero-count cell, every
in-bounds unflagged neighbor of that cell is pressed when the call returns.
The `clickSeq` version additionally guarantees every unflagged target of the
list is pressed. -/
theorem clickSeq_closure_of (f : Nat)
    (hfO : ∀ b x y, b.bombed = false → consistentCounts b → x < b.W → y < b.H →
      (b.pressed x y = true ∨ b.flagged x y = true ∨ b.mine x y = false) →
      OutSpec b (clickFuel f b x y).1 (clickFuel f b x y).2)
    (hfC : ∀ b x y, unpressedCard b < f → b.bombed = false → consistentCounts b →
      x < b.W → y < b.H →
      (b.pressed x y = true ∨ b.flagged x y = true ∨ b.mine x y = false) →
      ∀ c ∈ coords (clickFuel f b x y).2, b.counts c.1 c.2 = 0 →
        ∀ n ∈ nbrs b.W b.H c.1 c.2, b.flagged n.1 n.2 = false →
          (clickFuel f b x y).1.pressed n.1 n.2 = true) :
    ∀ (cs : List (Nat × Nat)) (b : Board), unpressedCard b < f → b.bombed = false →
      consistentCounts b →
      (∀ c ∈ cs, c.1 < b.W ∧ c.2 < b.H ∧
        (b.pressed c.1 c.2 = true ∨ b.flagged c.1 c.2 = true ∨ b.mine c.1 c.2 = false)) →
      (∀ c ∈ coords (clickSeq f (b, []) cs).2, b.counts c.1 c.2 = 0 →
        ∀ n ∈ nbrs b.W b.H c.1 c.2, b.flagged n.1 n.2 = false →
          (clickSeq f (b, []) cs).1.pressed n.1 n.2 = true) ∧
      (∀ c ∈ cs, b.flagged c.1 c.2 = false →
        (clickSeq f (b, []) cs).1.pressed c.1 c.2 = true) := by
  intro cs
  induction cs with
  | nil =>
    intro b _ _ _ _
    constructor
    · intro c hc
      rw [clickSeq_nil] at hc
      simp [coords] at hc
    · intro c hc
      simp at hc
  | cons c0 cs ih =>
    intro b hfuel hb hc htargets
    have hhead := htargets c0 (List.mem_cons_self c0 cs)
    have hO : OutSpec b (clickFuel f b c0.1 c0.2).1 (clickFuel f b c0.1 c0.2).2 :=
      hfO b c0.1 c0.2 hb hc hhead.1 hhead.2.1 hhead.2.2
    have hext : Ext b (clickFuel f b c0.1 c0.2).1 := clickFuel_ext f b c0.1 c0.2
    have hfuel1 : unpressedCard (clickFuel f b c0.1 c0.2).1 < f :=
      lt_of_le_of_lt (unpressed_mono hext) hfuel
    have htail : ∀ d ∈ cs, d.1 < (clickFuel f b c0.1 c0.2).1.W ∧
        d.2 < (clickFuel f b c0.1 c0.2).1.H ∧
        ((clickFuel f b c0.1 c0.2).1.pressed d.1 d.2 = true ∨
          (clickFuel f b c0.1 c0.2).1.flagged d.1 d.2 = true ∨
          (clickFuel f b c0.1 c0.2).1.mine d.1 d.2 = false) := by
      intro d hd
      have := htargets d (List.mem_cons_of_mem c0 hd)
      refine ⟨by rw [hext.1]; exact this.1, by rw [hext.2.1]; exact this.2.1, ?_⟩
      rcases this.2.2 with hpr | hfl | hmi
      · exact Or.inl (hext.2.2.2.2.2.1 d.1 d.2 hpr)
      · exact Or.inr (Or.inl (by rw [hext.2.2.2.1]; exact hfl))
      · exact Or.inr (Or.inr (by rw [hext.2.2.1]; exact hmi))
    have hIH := ih (clickFuel f b c0.1 c0.2).1 hfuel1 hO.1
      (consistent_of_ext hext hc) htail
    have hextS : Ext (clickFuel f b c0.1 c0.2).1
        (clickSeq f ((clickFuel f b c0.1 c0.2).1, []) cs).1 :=
      clickSeq_ext f cs _
    have hrw : clickSeq f (b, []) (c0 :: cs) =
        ((clickSeq f ((clickFuel f b c0.1 c0.2).1, []) cs).1,
          (clickFuel f b c0.1 c0.2).2 ++
            (clickSeq f ((clickFuel f b c0.1 c0.2).1, []) cs).2) := by
      rw [clickSeq_cons, clickStep_eq]
      simp only [List.nil_append]
      exact clickSeq_acc f cs _ _
    rw [hrw]
    constructor
    · intro c hcmem hzero n hn hfln
      simp only at hcmem
      rw [coords_append, List.mem_append] at hcmem
      cases hcmem with
      | inl hmem =>
        have := hfC b c0.1 c0.2 hfuel hb hc hhead.1 hhead.2.1 hhead.2.2 c hmem hzero
          n hn hfln
        exact hextS.2.2.2.2.2.1 n.1 n.2 this
      | inr hmem =>
        have hzr : (clickFuel f b c0.1 c0.2).1.counts c.1 c.2 = 0 := by
          rw [hext.2.2.2.2.1]; exact hzero
        have hn' : n ∈ nbrs (clickFuel f b c0.1 c0.2).1.W
            (clickFuel f b c0.1 c0.2).1.H c.1 c.2 := by
          rw [hext.1, hext.2.1]; exact hn
        have hfl' : (clickFuel f b c0.1 c0.2).1.flagged n.1 n.2 = false := by
          rw [hext.2.2.2.1]; exact hfln
        exact hIH.1 c hmem hzr n hn' hfl'
    · intro d hd hfld
      rcases List.mem_cons.mp hd with hd0 | hdtail
      · subst hd0
        have hpressed : (clickFuel f b d.1 d.2).1.pressed d.1 d.2 = true := by
          apply clickFuel_press_target f b d.1 d.2 (by omega) hb
          rcases hhead.2.2 with hpr | hfl | hmi
          · exact Or.inl hpr
          · rw [hfl] at hfld; cases hfld
          · exact Or.inr ⟨hfld, hmi⟩
        exact hextS.2.2.2.2.2.1 d.1 d.2 hpressed
      · have hfld' : (clickFuel f b c0.1 c0.2).1.flagged d.1 d.2 = false := by
          rw [hext.2.2.2.1]; exact hfld
        exact hIH.2 d hdtail hfld'

theorem clickFuel_closure : ∀ (f : Nat) (b : Board) (x y : Nat),
    unpressedCard b < f → b.bombed = false → consistentCounts b →
    x < b.W → y < b.H →
    (b.pressed x y = true ∨ b.flagged x y = true ∨ b.mine x y = false) →
    ∀ c ∈ coords (clickFuel f b x y).2, b.counts c.1 c.2 = 0 →
      ∀ n ∈ nbrs b.W b.H c.1 c.2, b.flagged n.1 n.2 = false →
        (clickFuel f b x y).1.pressed n.1 n.2 = true := by
  intro f
  induction f with
  | zero => intro b x y hfuel; omega
  | succ f ih =>
    intro b x y hfuel hb hc hx hy hsafe c hcmem hzero n hn hfln
    by_cases hguard : (b.bombed || b.pressed x y || b.flagged x y) = true
    · have heq : clickFuel (f + 1) b x y = (b, []) := by
        rw [clickFuel_succ, if_pos hguard]
      rw [heq] at hcmem
      simp [coords] at hcmem
    · have hp : b.pressed x y = false := by
        cases h : b.pressed x y
        · rfl
        · exact absurd (by simp [h]) hguard
      have hfl : b.flagged x y = false := by
        cases h : b.flagged x y
        · rfl
        · exact absurd (by simp [h]) hguard
      have hm : b.mine x y = false := by
        rcases hsafe with h | h | h
        · rw [h] at hp; cases hp
        · rw [h] at hfl; cases hfl
        · exact h
      by_cases hzero0 : b.counts x y = 0
      · have heq : clickFuel (f + 1) b x y =
            ((clickSeq f (press b x y, []) (nbrs b.W b.H x y)).1,
              [(x, y, (b.counts x y : Int))] ++
                (clickSeq f (press b x y, []) (nbrs b.W b.H x y)).2) := by
          rw [clickFuel_succ, if_neg hguard, hm]
          simp only [Bool.false_eq_true, if_false, if_pos hzero0]
          exact clickSeq_acc f _ _ _
        rw [heq] at hcmem ⊢
        have hfuel1 : unpressedCard (press b x y) < f := by
          have := unpressed_press hx hy hp
          omega
        have hconsistent1 : consistentCounts (press b x y) :=
          consistent_of_ext (ext_press b x y) hc
        have htargets : ∀ d ∈ nbrs b.W b.H x y, d.1 < (press b x y).W ∧
            d.2 < (press b x y).H ∧
            ((press b x y).pressed d.1 d.2 = true ∨
              (press b x y).flagged d.1 d.2 = true ∨
              (press b x y).mine d.1 d.2 = false) := by
          intro d hd
          have hbd := nbrs_bounds hd
          exact ⟨hbd.1, hbd.2, Or.inr (Or.inr (zero_no_mine hc hx hy hzero0 d hd))⟩
        have hcl := clickSeq_closure_of f
          (fun b x y => clickFuel_outSpec f b x y) ih
          (nbrs b.W b.H x y) (press b x y) hfuel1 hb hconsistent1 htargets
        simp only [coords_append, List.mem_append] at hcmem
        cases hcmem with
        | inl hmem =>
          simp only [coords, List.map_cons, List.map_nil, List.mem_singleton] at hmem
          subst hmem
          have hnn : n ∈ nbrs b.W b.H x y := by
            simpa using hn
          exact hcl.2 n hnn hfln
        | inr hmem =>
          have hzr : (press b x y).counts c.1 c.2 = 0 := hzero
          have hn' : n ∈ nbrs (press b x y).W (press b x y).H c.1 c.2 := hn
          exact hcl.1 c hmem hzr n hn' hfln
      · have heq : clickFuel (f + 1) b x y =
            (press b x y, [(x, y, (b.counts x y : Int))]) := by
          rw [clickFuel_succ, if_neg hguard, hm]
          simp only [Bool.false_eq_true, if_false, if_neg hzero0]
        rw [heq] at hcmem
        simp only [coords, List.map_cons, List.map_nil, List.mem_singleton] at hcmem
        subst hcmem
        exact absurd hzero hzero0

/-! ## The reachability relation matches the cascade -/

theorem reachZ_bounds {b : Board} {x y u v : Nat} (hx : x < b.W) (hy : y < b.H)
    (h : ReachZ b x y u v) : u < b.W ∧ v < b.H := by
  induction h with
  | base => exact ⟨hx, hy⟩
  | step _ _ hn _ _ _ => exact nbrs_bounds hn

theorem reachZ_not_mine {b : Board} (hc : consistentCounts b) {x y : Nat}
    (hx : x < b.W) (hy : y < b.H) (hm : b.mine x y = false) {u v : Nat}
    (h : ReachZ b x y u v) : b.mine u v = false := by
  induction h with
  | base => exact hm
  | step hprev hzero hn _ _ _ =>
    have hbd := reachZ_bounds hx hy hprev
    exact zero_no_mine hc hbd.1 hbd.2 hzero _ hn

theorem reachZ_fresh {b : Board} {x y : Nat} (hp : b.pressed x y = false)
    (hfl : b.flagged x y = false) {u v : Nat} (h : ReachZ b x y u v) :
    b.pressed u v = false ∧ b.flagged u v = false := by
  induction h with
  | base => exact ⟨hp, hfl⟩
  | step _ _ _ hpn hfn _ => exact ⟨hpn, hfn⟩

/-- Soundness: every coordinate produced by the cascade is in the
reachability relation of the original board. -/
theorem clickSeq_reach_of (b0 : Board) (X Y : Nat) (f : Nat)
    (hf : ∀ b x y, Ext b0 b →
      (b.pressed x y = true ∨ b.flagged x y = true ∨ ReachZ b0 X Y x y) →
      ∀ c ∈ coords (clickFuel f b x y).2, ReachZ b0 X Y c.1 c.2) :
    ∀ (cs : List (Nat × Nat)) (b : Board), Ext b0 b →
      (∀ c ∈ cs, b.pressed c.1 c.2 = true ∨ b.flagged c.1 c.2 = true ∨
        ReachZ b0 X Y c.1 c.2) →
      ∀ c ∈ coords (clickSeq f (b, []) cs).2, ReachZ b0 X Y c.1 c.2 := by
  intro cs
  induction cs with
  | nil =>
    intro b _ _ c hcmem
    rw [clickSeq_nil] at hcmem
    simp [coords] at hcmem
  | cons c0 cs ih =>
    intro b hext htargets c hcmem
    have hrw : clickSeq f (b, []) (c0 :: cs) =
        ((clickSeq f ((clickFuel f b c0.1 c0.2).1, []) cs).1,
          (clickFuel f b c0.1 c0.2).2 ++
            (clickSeq f ((clickFuel f b c0.1 c0.2).1, []) cs).2) := by
      rw [clickSeq_cons, clickStep_eq]
      simp only [List.nil_append]
      exact clickSeq_acc f cs _ _
    rw [hrw] at hcmem
    simp only [coords_append, List.mem_append] at hcmem
    have hext1 : Ext b (clickFuel f b c0.1 c0.2).1 := clickFuel_ext f b c0.1 c0.2
    cases hcmem with
    | inl hmem =>
      exact hf b c0.1 c0.2 hext (htargets c0 (List.mem_cons_self c0 cs)) c hmem
    | inr hmem =>
      refine ih (clickFuel f b c0.1 c0.2).1 (ext_trans hext hext1) ?_ c hmem
      intro d hd
      rcases htargets d (List.mem_cons_of_mem c0 hd) with hpr | hfl | hrz
      · exact Or.inl (hext1.2.2.2.2.2.1 d.1 d.2 hpr)
      · exact Or.inr (Or.inl (by rw [hext1.2.2.2.1]; exact hfl))
      · exact Or.inr (Or.inr hrz)

theorem clickFuel_reach (b0 : Board) (X Y : Nat) : ∀ (f : Nat) (b : Board) (x y : Nat),
    Ext b0 b →
    (b.pressed x y = true ∨ b.flagged x y = true ∨ ReachZ b0 X Y x y) →
    ∀ c ∈ coords (clickFuel f b x y).2, ReachZ b0 X Y c.1 c.2 := by
  intro f
  induction f with
  | zero =>
    intro b x y _ _ c hcmem
    simp [clickFuel, coords] at hcmem
  | succ f ih =>
    intro b x y hext htarget c hcmem
    by_cases hguard : (b.bombed || b.pressed x y || b.flagged x y) = true
    · have heq : clickFuel (f + 1) b x y = (b, []) := by
        rw [clickFuel_succ, if_pos hguard]
      rw [heq] at hcmem
      simp [coords] at hcmem
    · have hp : b.pressed x y = false := by
        cases h : b.pressed x y
        · rfl
        · exact absurd (by simp [h]) hguard
      have hfl : b.flagged x y = false := by
        cases h : b.flagged x y
        · rfl
        · exact absurd (by simp [h]) hguard
      have hrz : ReachZ b0 X Y x y := by
        rcases htarget with h | h | h
        · rw [h] at hp; cases hp
        · rw [h] at hfl; cases hfl
        · exact h
      by_cases hmine : b.mine x y = true
      · have heq : clickFuel (f + 1) b x y =
            ({ b with bombed := true }, [(x, y, -1)]) := by
          rw [clickFuel_succ, if_neg hguard, if_pos hmine]
        rw [heq] at hcmem
        simp only [coords, List.map_cons, List.map_nil, List.mem_singleton] at hcmem
        subst hcmem
        exact hrz
      · rw [Bool.not_eq_true] at hmine
        by_cases hzero0 : b.counts x y = 0
        · have heq : clickFuel (f + 1) b x y =
              ((clickSeq f (press b x y, []) (nbrs b.W b.H x y)).1,
                [(x, y, (b.counts x y : Int))] ++
                  (clickSeq f (press b x y, []) (nbrs b.W b.H x y)).2) := by
            rw [clickFuel_succ, if_neg hguard, hmine]
            simp only [Bool.false_eq_true, if_false, if_pos hzero0]
            exact clickSeq_acc f _ _ _
          rw [heq] at hcmem
          simp only [coords_append, List.mem_append] at hcmem
          cases hcmem with
          | inl hmem =>
            simp only [coords, List.map_cons, List.map_nil, List.mem_singleton] at hmem
            subst hmem
            exact hrz
          | inr hmem =>
            have hext1 : Ext b0 (press b x y) := ext_trans hext (ext_press b x y)
            refine clickSeq_reach_of b0 X Y f ih (nbrs b.W b.H x y)
              (press b x y) hext1 ?_ c hmem
            intro d hd
            by_cases hdp : (press b x y).pressed d.1 d.2 = true
            · exact Or.inl hdp
            · by_cases hdf : (press b x y).flagged d.1 d.2 = true
              · exact Or.inr (Or.inl hdf)
              · refine Or.inr (Or.inr ?_)
                rw [Bool.not_eq_true] at hdp hdf
                refine ReachZ.step hrz ?_ ?_ ?_ ?_
                · rw [← hext.2.2.2.2.1]; exact hzero0
                · rw [← hext.1, ← hext.2.1]
                  exact (by simpa using hd)
                · cases h0 : b0.pressed d.1 d.2
                  · rfl
                  · exfalso
                    have hb := hext.2.2.2.2.2.1 d.1 d.2 h0
                    have := (ext_press b x y).2.2.2.2.2.1 d.1 d.2 hb
                    rw [this] at hdp; cases hdp
                · have : (press b x y).flagged = b0.flagged := by
                    have h1 : (press b x y).flagged = b.flagged := rfl
                    rw [h1, hext.2.2.2.1]
                  rw [← this]; exact hdf
        · have heq : clickFuel (f + 1) b x y =
              (press b x y, [(x, y, (b.counts x y : Int))]) := by
            rw [clickFuel_succ, if_neg hguard, hmine]
            simp only [Bool.false_eq_true, if_false, if_neg hzero0]
          rw [heq] at hcmem
          simp only [coords, List.map_cons, List.map_nil, List.mem_singleton] at hcmem
          subst hcmem
          exact hrz

/-- Completeness: every cell of the reachability relation is pressed after
the click. -/
theorem click_complete {b : Board} {x y : Nat} (hb : b.bombed = false)
    (hc : consistentCounts b) (hx : x < b.W) (hy : y < b.H)
    (hp : b.pressed x y = false) (hfl : b.flagged x y = false)
    (hm : b.mine x y = false) :
    ∀ u v, ReachZ b x y u v → (click b x y).1.pressed u v = true := by
  intro u v h
  induction h with
  | base =>
    exact clickFuel_press_target _ b x y (by omega) hb (Or.inr ⟨hfl, hm⟩)
  | step hprev hzero hn hpn hfn ihp =>
    rename_i cx cy nx ny
    have hfresh := reachZ_fresh hp hfl hprev
    have hcoords : (cx, cy) ∈ coords (click b x y).2 := by
      have hO := clickFuel_outSpec (b.W * b.H + 1) b x y hb hc hx hy
        (Or.inr (Or.inr hm))
      have := (hO.2.1 cx cy).mp ihp
      rcases this with hold | hnew
      · rw [hfresh.1] at hold; cases hold
      · exact hnew
    exact clickFuel_closure (b.W * b.H + 1) b x y
      (by have := unpressed_le b; omega) hb hc hx hy (Or.inr (Or.inr hm))
      (cx, cy) hcoords hzero (nx, ny) hn hfn

/-! ## Unconditional invariants of the click recursion -/

/-- A click never presses a mine cell, whatever the board looks like: the
mine guard precedes the press in every call. -/
theorem clickSeq_not_mine_of (f : Nat)
    (hf : ∀ b x y u v, (clickFuel f b x y).1.pressed u v = true →
      b.pressed u v = true ∨ b.mine u v = false) :
    ∀ (cs : List (Nat × Nat)) (st : Board × List (Nat × Nat × Int)) (u v : Nat),
      (clickSeq f st cs).1.pressed u v = true →
      st.1.pressed u v = true ∨ st.1.mine u v = false := by
  intro cs
  induction cs with
  | nil => intro st u v h; rw [clickSeq_nil] at h; exact Or.inl h
  | cons c cs ih =>
    intro st u v h
    rw [clickSeq_cons] at h
    rcases ih (clickStep f st c) u v h with hpr | hmi
    · rw [clickStep_eq] at hpr
      exact hf st.1 c.1 c.2 u v hpr
    · rw [clickStep_eq] at hmi
      right
      rw [← (clickFuel_ext f st.1 c.1 c.2).2.2.1]
      exact hmi

theorem clickFuel_not_mine : ∀ (f : Nat) (b : Board) (x y u v : Nat),
    (clickFuel f b x y).1.pressed u v = true →
    b.pressed u v = true ∨ b.mine u v = false := by
  intro f
  induction f with
  | zero => intro b x y u v h; exact Or.inl h
  | succ f ih =>
    intro b x y u v h
    by_cases hguard : (b.bombed || b.pressed x y || b.flagged x y) = true
    · rw [clickFuel_succ, if_pos hguard] at h
      exact Or.inl h
    · by_cases hmine : b.mine x y = true
      · rw [clickFuel_succ, if_neg hguard, if_pos hmine] at h
        exact Or.inl h
      · rw [Bool.not_eq_true] at hmine
        have hpress : ∀ w z, (press b x y).pressed w z = true →
            b.pressed w z = true ∨ b.mine w z = false := by
          intro w z hw
          rcases (press_pressed b x y w z).mp hw with hEq | hpr
          · right
            have h1 : w = x := congrArg Prod.fst hEq
            have h2 : z = y := congrArg Prod.snd hEq
            rw [h1, h2]; exact hmine
          · exact Or.inl hpr
        by_cases hzero0 : b.counts x y = 0
        · have heq : clickFuel (f + 1) b x y =
              clickSeq f (press b x y, [(x, y, (b.counts x y : Int))])
                (nbrs b.W b.H x y) := by
            rw [clickFuel_succ, if_neg hguard, hmine]
            simp only [Bool.false_eq_true, if_false, if_pos hzero0]
          rw [heq] at h
          rcases clickSeq_not_mine_of f ih (nbrs b.W b.H x y) _ u v h with hpr | hmi
          · exact hpress u v hpr
          · exact Or.inr hmi
        · have heq : clickFuel (f + 1) b x y =
              (press b x y, [(x, y, (b.counts x y : Int))]) := by
            rw [clickFuel_succ, if_neg hguard, hmine]
            simp only [Bool.false_eq_true, if_false, if_neg hzero0]
          rw [heq] at h
          exact hpress u v h

/-- A click only presses in-bounds cells when its target is in bounds. -/
theorem clickSeq_in_bounds_of (f : Nat)
    (hf : ∀ b x y u v, x < b.W → y < b.H →
      (clickFuel f b x y).1.pressed u v = true →
      b.pressed u v = true ∨ (u < b.W ∧ v < b.H)) :
    ∀ (cs : List (Nat × Nat)) (st : Board × List (Nat × Nat × Int)) (u v : Nat),
      (∀ c ∈ cs, c.1 < st.1.W ∧ c.2 < st.1.H) →
      (clickSeq f st cs).1.pressed u v = true →
      st.1.pressed u v = true ∨ (u < st.1.W ∧ v < st.1.H) := by
  intro cs
  induction cs with
  | nil => intro st u v _ h; rw [clickSeq_nil] at h; exact Or.inl h
  | cons c cs ih =>
    intro st u v hbd h
    rw [clickSeq_cons] at h
    have hext : Ext st.1 (clickStep f st c).1 := by
      rw [clickStep_eq]; exact clickFuel_ext f st.1 c.1 c.2
    have hbd' : ∀ d ∈ cs, d.1 < (clickStep f st c).1.W ∧ d.2 < (clickStep f st c).1.H := by
      intro d hd
      have := hbd d (List.mem_cons_of_mem c hd)
      rw [hext.1, hext.2.1]
      exact this
    rcases ih (clickStep f st c) u v hbd' h with hpr | hin
    · rw [clickStep_eq] at hpr
      have hc := hbd c (List.mem_cons_self c cs)
      exact hf st.1 c.1 c.2 u v hc.1 hc.2 hpr
    · right
      rw [hext.1, hext.2.1] at hin
      exact hin

theorem clickFuel_in_bounds : ∀ (f : Nat) (b : Board) (x y u v : Nat),
    x < b.W → y < b.H →
    (clickFuel f b x y).1.pressed u v = true →
    b.pressed u v = true ∨ (u < b.W ∧ v < b.H) := by
  intro f
  induction f with
  | zero => intro b x y u v _ _ h; exact Or.inl h
  | succ f ih =>
    intro b x y u v hx hy h
    by_cases hguard : (b.bombed || b.pressed x y || b.flagged x y) = true
    · rw [clickFuel_succ, if_pos hguard] at h
      exact Or.inl h
    · by_cases hmine : b.mine x y = true
      · rw [clickFuel_succ, if_neg hguard, if_pos hmine] at h
        exact Or.inl h
      · rw [Bool.not_eq_true] at hmine
        have hpress : ∀ w z, (press b x y).pressed w z = true →
            b.pressed w z = true ∨ (w < b.W ∧ z < b.H) := by
          intro w z hw
          rcases (press_pressed b x y w z).mp hw with hEq | hpr
          · right
            have h1 : w = x := congrArg Prod.fst hEq
            have h2 : z = y := congrArg Prod.snd hEq
            rw [h1, h2]; exact ⟨hx, hy⟩
          · exact Or.inl hpr
        by_cases hzero0 : b.counts x y = 0
        · have heq : clickFuel (f + 1) b x y =
              clickSeq f (press b x y, [(x, y, (b.counts x y : Int))])
                (nbrs b.W b.H x y) := by
            rw [clickFuel_succ, if_neg hguard, hmine]
            simp only [Bool.false_eq_true, if_false, if_pos hzero0]
          rw [heq] at h
          have hbd : ∀ c ∈ nbrs b.W b.H x y,
              c.1 < (press b x y).W ∧ c.2 < (press b x y).H := by
            intro c hc
            exact nbrs_bounds hc
          rcases clickSeq_in_bounds_of f ih (nbrs b.W b.H x y) _ u v hbd h with hpr | hin
          · exact hpress u v hpr
          · exact Or.inr hin
        · have heq : clickFuel (f + 1) b x y =
              (press b x y, [(x, y, (b.counts x y : Int))]) := by
            rw [clickFuel_succ, if_neg hguard, hmine]
            simp only [Bool.false_eq_true, if_false, if_neg hzero0]
          rw [heq] at h
          exact hpress u v h

theorem pressedCard_press {b : Board} {x y : Nat} (hx : x < b.W) (hy : y < b.H)
    (hp : b.pressed x y = false) :
    pressedCard (press b x y) = pressedCard b + 1 := by
  have hset : ((grid (press b x y).W (press b x y).H).filter
      fun c => (press b x y).pressed c.1 c.2 = true) =
      insert (x, y) ((grid b.W b.H).filter fun c => b.pressed c.1 c.2 = true) := by
    ext c
    simp only [Finset.mem_insert, Finset.mem_filter]
    have hWH : (press b x y).W = b.W ∧ (press b x y).H = b.H := ⟨rfl, rfl⟩
    rw [hWH.1, hWH.2]
    constructor
    · intro ⟨hg, hpc⟩
      rcases (press_pressed b x y c.1 c.2).mp hpc with hEq | hpr
      · left
        exact Prod.ext (congrArg Prod.fst hEq) (congrArg Prod.snd hEq)
      · right; exact ⟨hg, hpr⟩
    · intro hor
      rcases hor with hEq | ⟨hg, hpc⟩
      · subst hEq
        exact ⟨mem_grid.mpr ⟨hx, hy⟩, (press_pressed b x y x y).mpr (Or.inl rfl)⟩
      · exact ⟨hg, (press_pressed b x y c.1 c.2).mpr (Or.inr hpc)⟩
  have hnotmem : (x, y) ∉ (grid b.W b.H).filter fun c => b.pressed c.1 c.2 = true := by
    rw [Finset.mem_filter]
    intro ⟨_, hpc⟩
    rw [hp] at hpc; cases hpc
  rw [pressedCard, hset, Finset.card_insert_of_not_mem hnotmem, pressedCard]

/-- The pressed count and `remaining` balance each other through any click
with an in-bounds target. -/
theorem clickSeq_card_of (f : Nat)
    (hf : ∀ b x y, x < b.W → y < b.H →
      (clickFuel f b x y).1.remaining + (pressedCard (clickFuel f b x y).1 : Int) =
        b.remaining + (pressedCard b : Int)) :
    ∀ (cs : List (Nat × Nat)) (b : Board) (acc : List (Nat × Nat × Int)),
      (∀ c ∈ cs, c.1 < b.W ∧ c.2 < b.H) →
      (clickSeq f (b, acc) cs).1.remaining +
        (pressedCard (clickSeq f (b, acc) cs).1 : Int) =
        b.remaining + (pressedCard b : Int) := by
  intro cs
  induction cs with
  | nil => intro b acc _; rw [clickSeq_nil]
  | cons c cs ih =>
    intro b acc hbd
    simp only [clickSeq_cons, clickStep_eq]
    have hext : Ext b (clickFuel f b c.1 c.2).1 := clickFuel_ext f b c.1 c.2
    have hbd' : ∀ d ∈ cs, d.1 < (clickFuel f b c.1 c.2).1.W ∧
        d.2 < (clickFuel f b c.1 c.2).1.H := by
      intro d hd
      have := hbd d (List.mem_cons_of_mem c hd)
      rw [hext.1, hext.2.1]
      exact this
    have hc := hbd c (List.mem_cons_self c cs)
    have h1 := hf b c.1 c.2 hc.1 hc.2
    have h2 := ih (clickFuel f b c.1 c.2).1 (acc ++ (clickFuel f b c.1 c.2).2) hbd'
    omega

theorem clickFuel_card : ∀ (f : Nat) (b : Board) (x y : Nat),
    x < b.W → y < b.H →
    (clickFuel f b x y).1.remaining + (pressedCard (clickFuel f b x y).1 : Int) =
      b.remaining + (pressedCard b : Int) := by
  intro f
  induction f with
  | zero => intro b x y _ _; rfl
  | succ f ih =>
    intro b x y hx hy
    by_cases hguard : (b.bombed || b.pressed x y || b.flagged x y) = true
    · rw [clickFuel_succ, if_pos hguard]
    · have hp : b.pressed x y = false := by
        cases h : b.pressed x y
        · rfl
        · exact absurd (by simp [h]) hguard
      have hbal : (press b x y).remaining + (pressedCard (press b x y) : Int) =
          b.remaining + (pressedCard b : Int) := by
        rw [pressedCard_press hx hy hp]
        have : (press b x y).remaining = b.remaining - 1 := rfl
        rw [this]
        push_cast
        ring
      by_cases hmine : b.mine x y = true
      · rw [clickFuel_succ, if_neg hguard, if_pos hmine]
        rfl
      · rw [Bool.not_eq_true] at hmine
        by_cases hzero0 : b.counts x y = 0
        · have heq : clickFuel (f + 1) b x y =
              clickSeq f (press b x y, [(x, y, (b.counts x y : Int))])
                (nbrs b.W b.H x y) := by
            rw [clickFuel_succ, if_neg hguard, hmine]
            simp only [Bool.false_eq_true, if_false, if_pos hzero0]
          rw [heq]
          have hbd : ∀ c ∈ nbrs b.W b.H x y,
              c.1 < (press b x y).W ∧ c.2 < (press b x y).H := by
            intro c hc
            exact nbrs_bounds hc
          have := clickSeq_card_of f ih (nbrs b.W b.H x y) (press b x y)
            [(x, y, (b.counts x y : Int))] hbd
          omega
        · have heq : clickFuel (f + 1) b x y =
              (press b x y, [(x, y, (b.counts x y : Int))]) := by
            rw [clickFuel_succ, if_neg hguard, hmine]
            simp only [Bool.false_eq_true, if_false, if_neg hzero0]
          rw [heq]
          exact hbal

/-! ## Mine placement: counting and the corner exclusion -/

theorem assignLoop_lt (W H m : Nat) : ∀ (l : List (Nat × Nat)) (a : Nat), a < m →
    assignLoop W H m l a =
      (l.filter fun c => !inCorner W H c.1 c.2).take (m - a) := by
  intro l
  induction l with
  | nil => intro a _; simp [assignLoop]
  | cons c rest ih =>
    intro a ha
    by_cases hcorner : inCorner W H c.1 c.2
    · simp [assignLoop, hcorner, List.filter_cons, ih a ha]
    · have hcf : inCorner W H c.1 c.2 = false := by
        cases h : inCorner W H c.1 c.2
        · rfl
        · exact absurd h hcorner
      by_cases hbreak : a + 1 = m
      · have hma : m - a = 1 := by omega
        simp only [assignLoop, hcf, Bool.false_eq_true, if_false, if_pos hbreak,
          List.filter_cons, Bool.not_false, if_true, hma, List.take_succ_cons,
          List.take_zero]
      · have ha1 : a + 1 < m := by omega
        have hma : m - a = (m - (a + 1)) + 1 := by omega
        simp only [assignLoop, hcf, Bool.false_eq_true, if_false, if_neg hbreak,
          List.filter_cons, Bool.not_false, if_true, hma, List.take_succ_cons,
          ih (a + 1) ha1]

theorem assignLoop_ge (W H m : Nat) : ∀ (l : List (Nat × Nat)) (a : Nat),
    m = 0 ∨ m ≤ a →
    assignLoop W H m l a = l.filter fun c => !inCorner W H c.1 c.2 := by
  intro l
  induction l with
  | nil => intro a _; simp [assignLoop]
  | cons c rest ih =>
    intro a ha
    by_cases hcorner : inCorner W H c.1 c.2
    · simp [assignLoop, hcorner, List.filter_cons, ih a ha]
    · have hcf : inCorner W H c.1 c.2 = false := by
        cases h : inCorner W H c.1 c.2
        · rfl
        · exact absurd h hcorner
      have hbreak : ¬(a + 1 = m) := by omega
      have hrec : m = 0 ∨ m ≤ a + 1 := by omega
      simp only [assignLoop, hcf, Bool.false_eq_true, if_false, if_neg hbreak,
        List.filter_cons, Bool.not_false, if_true, ih (a + 1) hrec]

theorem minePlaces_pos (W H m : Nat) (perm : List (Nat × Nat)) (hm : 1 ≤ m) :
    minePlaces W H m perm =
      (perm.filter fun c => !inCorner W H c.1 c.2).take m := by
  rw [minePlaces, assignLoop_lt W H m perm 0 (by omega), Nat.sub_zero]

theorem minePlaces_zero (W H : Nat) (perm : List (Nat × Nat)) :
    minePlaces W H 0 perm = perm.filter fun c => !inCorner W H c.1 c.2 := by
  rw [minePlaces, assignLoop_ge W H 0 perm 0 (Or.inl rfl)]

theorem minePlaces_sub (W H m : Nat) (perm : List (Nat × Nat)) :
    ∀ c ∈ minePlaces W H m perm, c ∈ perm ∧ inCorner W H c.1 c.2 = false := by
  intro c hc
  have hmem : c ∈ perm.filter fun c => !inCorner W H c.1 c.2 := by
    cases Nat.eq_zero_or_pos m with
    | inl h0 => rw [h0, minePlaces_zero] at hc; exact hc
    | inr hpos => rw [minePlaces_pos W H m perm hpos] at hc; exact List.mem_of_mem_take hc
  have := List.mem_filter.mp hmem
  refine ⟨this.1, ?_⟩
  have := this.2
  simpa using this

theorem minePlaces_nodup (W H m : Nat) {perm : List (Nat × Nat)}
    (hnd : perm.Nodup) : (minePlaces W H m perm).Nodup := by
  cases Nat.eq_zero_or_pos m with
  | inl h0 => rw [h0, minePlaces_zero]; exact hnd.filter _
  | inr hpos =>
    rw [minePlaces_pos W H m perm hpos]
    exact (List.take_sublist m _).nodup (hnd.filter _)

theorem candidates_nodup (W H : Nat) : (candidates W H).Nodup := by
  have : candidates W H = (List.range W).product (List.range H) := rfl
  rw [this]
  exact List.Nodup.product (List.nodup_range W) (List.nodup_range H)

theorem mem_candidates {W H : Nat} {c : Nat × Nat} :
    c ∈ candidates W H ↔ c.1 < W ∧ c.2 < H := by
  obtain ⟨a, b⟩ := c
  simp only [candidates, List.mem_flatMap, List.mem_map, List.mem_range]
  constructor
  · rintro ⟨x, hx, y, hy, heq⟩
    cases heq
    exact ⟨hx, hy⟩
  · intro ⟨ha, hb⟩
    exact ⟨a, ha, b, hb, rfl⟩

theorem minePlaces_length (W H m : Nat) {perm : List (Nat × Nat)}
    (hperm : perm.Perm (candidates W H)) :
    (minePlaces W H m perm).length =
      if m = 0 then eligibleCount W H else min m (eligibleCount W H) := by
  have hfl : (perm.filter fun c => !inCorner W H c.1 c.2).length =
      eligibleCount W H :=
    (hperm.filter _).length_eq
  cases Nat.eq_zero_or_pos m with
  | inl h0 =>
    rw [h0, minePlaces_zero, hfl, if_pos rfl]
  | inr hpos =>
    rw [minePlaces_pos W H m perm hpos, List.length_take, hfl,
      if_neg (by omega)]

theorem mineTotal_create (W H m : Nat) (perm : List (Nat × Nat))
    (hperm : perm.Perm (candidates W H)) :
    mineTotal (create W H m perm) =
      if m = 0 then eligibleCount W H else min m (eligibleCount W H) := by
  have hset : ((grid (create W H m perm).W (create W H m perm).H).filter
      fun c => (create W H m perm).mine c.1 c.2 = true) =
      (minePlaces W H m perm).toFinset := by
    ext c
    simp only [Finset.mem_filter, List.mem_toFinset, create, decide_eq_true_eq]
    constructor
    · intro ⟨_, hmem⟩
      simpa using hmem
    · intro hmem
      have hinperm := (minePlaces_sub W H m perm c hmem).1
      have hbd := mem_candidates.mp (hperm.mem_iff.mp hinperm)
      refine ⟨mem_grid.mpr hbd, ?_⟩
      simpa using hmem
  rw [mineTotal, hset,
    List.toFinset_card_of_nodup (minePlaces_nodup W H m (hperm.symm.nodup (candidates_nodup W H))),
    minePlaces_length W H m hperm]

/-! ## Claim C3: mine count and corner exclusion of created boards -/

/-- C3 (counterexample): on a 4×4 board every cell lies in a corner 2×2
zone, so `create` with `mineCount = 1` places no mine at all: the board does
not have exactly `mineCount` mines. -/
theorem c3_counterexample :
    (candidates 4 4).Perm (candidates 4 4) ∧
    mineTotal (create 4 4 1 (candidates 4 4)) = 0 ∧ (0 : Nat) ≠ 1 :=
  ⟨List.Perm.refl _, by decide, by decide⟩

/-- C3 (amended): for every generated board no mine lies in a corner 2×2
zone, and the number of mines is `min mineCount E` when `mineCount ≥ 1`
(where `E` is the number of non-corner cells) but `E` — every eligible
cell — when `mineCount = 0`, because the break check `a + 1 == m` fires only
after an assignment.  In particular the count is exactly `mineCount` only
when `1 ≤ mineCount ≤ E`. -/
theorem c3_amended (W H m : Nat) (perm : List (Nat × Nat))
    (hperm : perm.Perm (candidates W H)) :
    (∀ x y, (create W H m perm).mine x y = true → inCorner W H x y = false) ∧
    mineTotal (create W H m perm) =
      (if m = 0 then eligibleCount W H else min m (eligibleCount W H)) := by
  constructor
  · intro x y h
    have hmem : (x, y) ∈ minePlaces W H m perm := by
      simpa [create] using h
    exact (minePlaces_sub W H m perm (x, y) hmem).2
  · exact mineTotal_create W H m perm hperm

/-- Witness for C3 on a 5×5 board with 3 requested mines (9 eligible
cells). -/
theorem c3_amended_witness :
    (candidates 5 5).Perm (candidates 5 5) ∧
    ((∀ x y, (create 5 5 3 (candidates 5 5)).mine x y = true →
        inCorner 5 5 x y = false) ∧
      mineTotal (create 5 5 3 (candidates 5 5)) =
        (if 3 = 0 then eligibleCount 5 5 else min 3 (eligibleCount 5 5))) :=
  ⟨List.Perm.refl _, c3_amended 5 5 3 (candidates 5 5) (List.Perm.refl _)⟩

/-! ## Claim C6: there is no mine-count validation -/

/-- C6 (counterexample): `create` on a 4×4 board with 20 requested mines —
far above the claimed limit `W*H - 16 = 0` — does not fail: a full game
state is produced (with zero mines and a negative `remaining` counter). -/
theorem c6_counterexample :
    ((4 * 4 : Int) - 16 ≤ (20 : Int)) ∧
    (create 4 4 20 (candidates 4 4)).bombed = false ∧
    (create 4 4 20 (candidates 4 4)).remaining = -4 ∧
    mineTotal (create 4 4 20 (candidates 4 4)) = 0 ∧
    has_won (create 4 4 20 (candidates 4 4)) = false ∧
    (∀ u v, (create 4 4 20 (candidates 4 4)).pressed u v = false) :=
  ⟨by decide, rfl, by decide, by decide, by decide, fun _ _ => rfl⟩

/-- C6 (amended): board construction never fails — the source contains no
mine-count validation.  Even when `mineCount` is at least `W*H - 16`, a
fully initialized game state is created; it silently carries only
`min mineCount E` mines (all `E` eligible cells when `mineCount = 0`) and
the `remaining` counter is still set to `W*H - mineCount`. -/
theorem c6_amended (W H m : Nat) (perm : List (Nat × Nat))
    (hperm : perm.Perm (candidates W H))
    (hover : (W * H : Int) - 16 ≤ (m : Int)) :
    (create W H m perm).bombed = false ∧
    (∀ u v, (create W H m perm).pressed u v = false ∧
      (create W H m perm).flagged u v = false) ∧
    (create W H m perm).remaining = (W * H : Int) - m ∧
    (create W H m perm).flagsRemaining = m ∧
    mineTotal (create W H m perm) =
      (if m = 0 then eligibleCount W H else min m (eligibleCount W H)) :=
  ⟨rfl, fun _ _ => ⟨rfl, rfl⟩, rfl, rfl, mineTotal_create W H m perm hperm⟩

/-- Witness for C6 at the 4×4 board with 20 requested mines. -/
theorem c6_amended_witness :
    (candidates 4 4).Perm (candidates 4 4) ∧ ((4 * 4 : Int) - 16 ≤ (20 : Int)) ∧
    ((create 4 4 20 (candidates 4 4)).bombed = false ∧
      (∀ u v, (create 4 4 20 (candidates 4 4)).pressed u v = false ∧
        (create 4 4 20 (candidates 4 4)).flagged u v = false) ∧
      (create 4 4 20 (candidates 4 4)).remaining = (4 * 4 : Int) - 20 ∧
      (create 4 4 20 (candidates 4 4)).flagsRemaining = 20 ∧
      mineTotal (create 4 4 20 (candidates 4 4)) =
        (if 20 = 0 then eligibleCount 4 4 else min 20 (eligibleCount 4 4))) :=
  ⟨List.Perm.refl _, by decide,
    c6_amended 4 4 20 (candidates 4 4) (List.Perm.refl _) (by decide)⟩

/-! ## Concrete boards used by witnesses and counterexamples -/

/-- A shuffle order for a 5×5 board that places the single mine at the
center cell `(2, 2)` (the first non-corner candidate of the order). -/
def permC1 : List (Nat × Nat) :=
  (2, 2) :: (candidates 5 5).erase (2, 2)

theorem permC1_perm : permC1.Perm (candidates 5 5) :=
  (List.perm_cons_erase (show ((2 : Nat), (2 : Nat)) ∈ candidates 5 5 by decide)).symm

/-- The 5×5 one-mine board generated from `permC1`: its only mine is at
`(2, 2)`. -/
def bDemo : Board :=
  create 5 5 1 permC1

/-- A 5×1 mine-free board whose middle cell `(2, 0)` is flagged: the flag
cuts the zero-count strip in two. -/
def bC2 : Board where
  W := 5
  H := 1
  mine := fun _ _ => false
  pressed := fun _ _ => false
  flagged := fun u v => decide (u = 2 ∧ v = 0)
  counts := fun _ _ => 0
  bombed := false
  remaining := 5
  flagsRemaining := 0

/-! ## Claim C7: the win condition over reachable states -/

/-- Invariant of boards reachable from a well-placed `create`: fixed
geometry and mines, pressed cells are safe and in bounds, and `remaining`
mirrors the pressed count against the safe total `N`. -/
def InvC7 (W H N : Nat) (mf : Nat → Nat → Bool) (b : Board) : Prop :=
  b.W = W ∧ b.H = H ∧ b.mine = mf ∧
  (∀ u v, b.pressed u v = true → u < W ∧ v < H ∧ mf u v = false) ∧
  b.remaining = (N : Int) - (pressedCard b : Int)

theorem pressedCard_create (W H m : Nat) (perm : List (Nat × Nat)) :
    pressedCard (create W H m perm) = 0 := by
  simp [pressedCard, create]

theorem invC7_create (W H m : Nat) (perm : List (Nat × Nat)) (hm : m ≤ W * H) :
    InvC7 W H (W * H - m) (create W H m perm).mine (create W H m perm) := by
  refine ⟨rfl, rfl, rfl, ?_, ?_⟩
  · intro u v hp
    cases hp
  · rw [pressedCard_create]
    show (W * H : Int) - m = _
    push_cast [Nat.cast_sub hm]
    ring

theorem invC7_click {W H N : Nat} {mf : Nat → Nat → Bool} {b : Board}
    (hinv : InvC7 W H N mf b) {x y : Nat} (hx : x < W) (hy : y < H) :
    InvC7 W H N mf (click b x y).1 := by
  obtain ⟨hW, hH, hmf, hsafe, hrem⟩ := hinv
  have hxb : x < b.W := by rw [hW]; exact hx
  have hyb : y < b.H := by rw [hH]; exact hy
  have hext : Ext b (click b x y).1 := click_ext b x y
  refine ⟨hext.1.trans hW, hext.2.1.trans hH, hext.2.2.1.trans hmf, ?_, ?_⟩
  · intro u v hp
    by_cases hold : b.pressed u v = true
    · exact hsafe u v hold
    · have h1 := clickFuel_not_mine _ b x y u v hp
      have h2 := clickFuel_in_bounds _ b x y u v hxb hyb hp
      rcases h1 with h1 | h1
      · exact absurd h1 hold
      · rcases h2 with h2 | h2
        · exact absurd h2 hold
        · rw [hW, hH] at h2
          rw [hmf] at h1
          exact ⟨h2.1, h2.2, h1⟩
  · have hbal : (click b x y).1.remaining + (pressedCard (click b x y).1 : Int) =
        b.remaining + (pressedCard b : Int) :=
      clickFuel_card (b.W * b.H + 1) b x y hxb hyb
    rw [hrem] at hbal
    omega

theorem pressedCard_flag (b : Board) (x y : Nat) :
    pressedCard (flag b x y) = pressedCard b := by
  rw [flag]
  split
  · rfl
  · rfl

theorem invC7_flag {W H N : Nat} {mf : Nat → Nat → Bool} {b : Board}
    (hinv : InvC7 W H N mf b) (x y : Nat) : InvC7 W H N mf (flag b x y) := by
  obtain ⟨hW, hH, hmf, hsafe, hrem⟩ := hinv
  have hst := flag_ext_static b x y
  refine ⟨hst.1.trans hW, hst.2.1.trans hH, hst.2.2.1.trans hmf, ?_, ?_⟩
  · intro u v hp
    rw [hst.2.2.2.1] at hp
    exact hsafe u v hp
  · rw [hst.2.2.2.2.2.2, pressedCard_flag, hrem]

theorem invC7_run {W H N : Nat} {mf : Nat → Nat → Bool} :
    ∀ (ops : List Op) (b : Board), InvC7 W H N mf b →
      (∀ op ∈ ops, opInBounds W H op) → InvC7 W H N mf (runOps b ops) := by
  intro ops
  induction ops with
  | nil => intro b hinv _; exact hinv
  | cons op ops ih =>
    intro b hinv hbd
    have hstep : InvC7 W H N mf (applyOp b op) := by
      cases op with
      | clickOp cx cy =>
        have := hbd _ (List.mem_cons_self _ _)
        exact invC7_click hinv this.1 this.2
      | flagOp fx fy => exact invC7_flag hinv fx fy
    exact ih (applyOp b op) hstep fun op hop => hbd op (List.mem_cons_of_mem _ hop)

theorem invC7_won_iff {W H m : Nat} {mf : Nat → Nat → Bool} {b : Board}
    (hinv : InvC7 W H (W * H - m) mf b)
    (hmt : ((grid W H).filter fun c => mf c.1 c.2 = true).card = m)
    (hm : m ≤ W * H) :
    (has_won b = true ↔
      ∀ u, u < W → ∀ v, v < H → mf u v = false → b.pressed u v = true) := by
  obtain ⟨hW, hH, hmf, hsafe, hrem⟩ := hinv
  have hpc : pressedCard b =
      ((grid W H).filter fun c => b.pressed c.1 c.2 = true).card := by
    rw [pressedCard, hW, hH]
  have hScard : ((grid W H).filter fun c => mf c.1 c.2 = false).card = W * H - m := by
    have hsplit : ((grid W H).filter fun c => mf c.1 c.2 = true).card +
        ((grid W H).filter fun c => ¬(mf c.1 c.2 = true)).card = (grid W H).card :=
      Finset.filter_card_add_filter_neg_card_eq_card _
    have hgridcard : (grid W H).card = W * H := by simp [grid]
    have hSeq : ((grid W H).filter fun c => ¬(mf c.1 c.2 = true)) =
        ((grid W H).filter fun c => mf c.1 c.2 = false) := by
      ext c
      simp [Bool.not_eq_true]
    rw [hSeq, hmt, hgridcard] at hsplit
    omega
  have hPS : ((grid W H).filter fun c => b.pressed c.1 c.2 = true) ⊆
      ((grid W H).filter fun c => mf c.1 c.2 = false) := by
    intro c hc
    rw [Finset.mem_filter] at hc ⊢
    exact ⟨hc.1, (hsafe c.1 c.2 hc.2).2.2⟩
  have hwon_iff : has_won b = true ↔
      pressedCard b = W * H - m := by
    rw [has_won, beq_iff_eq, hrem]
    constructor
    · intro h
      have : (pressedCard b : Int) = ((W * H - m : Nat) : Int) := by omega
      exact_mod_cast this
    · intro h
      rw [h]
      omega
  rw [hwon_iff]
  constructor
  · intro hcard u hu v hv hmfv
    have hPeqS : ((grid W H).filter fun c => b.pressed c.1 c.2 = true) =
        ((grid W H).filter fun c => mf c.1 c.2 = false) := by
      apply Finset.eq_of_subset_of_card_le hPS
      rw [← hpc, hcard, hScard]
    have : (u, v) ∈ (grid W H).filter fun c => mf c.1 c.2 = false := by
      rw [Finset.mem_filter]
      exact ⟨mem_grid.mpr ⟨hu, hv⟩, hmfv⟩
    rw [← hPeqS, Finset.mem_filter] at this
    exact this.2
  · intro hall
    have hSP : ((grid W H).filter fun c => mf c.1 c.2 = false) ⊆
        ((grid W H).filter fun c => b.pressed c.1 c.2 = true) := by
      intro c hc
      rw [Finset.mem_filter] at hc ⊢
      have hbd := mem_grid.mp hc.1
      exact ⟨hc.1, hall c.1 hbd.1 c.2 hbd.2 hc.2⟩
    have hPeqS := Finset.Subset.antisymm hPS hSP
    rw [hpc, hPeqS, hScard]

theorem eligibleCount_le (W H : Nat) : eligibleCount W H ≤ W * H := by
  have h1 : eligibleCount W H ≤ (candidates W H).length :=
    List.length_filter_le _ _
  have h2 : (candidates W H).length = W * H := by
    have heq : candidates W H = (List.range W) ×ˢ (List.range H) := rfl
    rw [heq, List.length_product, List.length_range, List.length_range]
  omega

/-- C7 (counterexample): on a 2×2 board with one requested mine, no mine can
be placed (all cells are corner-excluded), so after revealing everything
every non-mine cell is revealed while `remaining = -1` and `hasWon` stays
false. -/
theorem c7_counterexample :
    (candidates 2 2).Perm (candidates 2 2) ∧
    (∀ u, u < 2 → ∀ v, v < 2 →
      ((runOps (create 2 2 1 (candidates 2 2)) [Op.clickOp 0 0]).mine u v = false →
        (runOps (create 2 2 1 (candidates 2 2)) [Op.clickOp 0 0]).pressed u v = true)) ∧
    has_won (runOps (create 2 2 1 (candidates 2 2)) [Op.clickOp 0 0]) = false :=
  ⟨List.Perm.refl _, by decide, by decide⟩

/-- C7 (amended): provided `1 ≤ mineCount ≤ E` (the eligible-cell count), so
that `create` places exactly `mineCount` mines, every board reachable by
in-bounds reveal and flag calls satisfies: `hasWon` is true iff every
non-mine cell is revealed. -/
theorem c7_amended (W H m : Nat) (perm : List (Nat × Nat)) (ops : List Op)
    (hperm : perm.Perm (candidates W H)) (hm1 : 1 ≤ m)
    (hm2 : m ≤ eligibleCount W H) (hops : ∀ op ∈ ops, opInBounds W H op) :
    (has_won (runOps (create W H m perm) ops) = true ↔
      ∀ u, u < W → ∀ v, v < H →
        (runOps (create W H m perm) ops).mine u v = false →
        (runOps (create W H m perm) ops).pressed u v = true) := by
  have hmWH : m ≤ W * H := le_trans hm2 (eligibleCount_le W H)
  have hinv := invC7_run ops (create W H m perm)
    (invC7_create W H m perm hmWH) hops
  have hmt : ((grid W H).filter
      fun c => (create W H m perm).mine c.1 c.2 = true).card = m := by
    have h := mineTotal_create W H m perm hperm
    rw [if_neg (by omega)] at h
    have hmin : min m (eligibleCount W H) = m := by omega
    rw [hmin] at h
    rw [mineTotal] at h
    have hWH : (create W H m perm).W = W ∧ (create W H m perm).H = H := ⟨rfl, rfl⟩
    rw [hWH.1, hWH.2] at h
    exact h
  have hiff := invC7_won_iff hinv hmt hmWH
  rw [hiff]
  have hmine_eq : (runOps (create W H m perm) ops).mine =
      (create W H m perm).mine := hinv.2.2.1
  rw [hmine_eq]

/-- Witness for C7: the untouched 5×5 demo board (one mine, no calls yet)
is not won, matching the fact that not all safe cells are revealed. -/
theorem c7_amended_witness :
    permC1.Perm (candidates 5 5) ∧ 1 ≤ 1 ∧ 1 ≤ eligibleCount 5 5 ∧
    (has_won (runOps (create 5 5 1 permC1) []) = true ↔
      ∀ u, u < 5 → ∀ v, v < 5 →
        (runOps (create 5 5 1 permC1) []).mine u v = false →
        (runOps (create 5 5 1 permC1) []).pressed u v = true) :=
  ⟨permC1_perm, le_refl 1, by decide,
    c7_amended 5 5 1 permC1 [] permC1_perm (le_refl 1) (by decide)
      (fun op hop => absurd hop (List.not_mem_nil op))⟩


/-! ## Claim C1: every reveal triple is fed to addConstraint -/

/-- A triple with count `-1` can only come from the mine branch, which sets
the lost flag. -/
theorem clickSeq_sentinel_of (f : Nat)
    (hf : ∀ b x y t, t ∈ (clickFuel f b x y).2 → t.2.2 = -1 →
      (clickFuel f b x y).1.bombed = true) :
    ∀ (cs : List (Nat × Nat)) (st : Board × List (Nat × Nat × Int)) (t : Nat × Nat × Int),
      t ∈ (clickSeq f st cs).2 → t.2.2 = -1 →
      (t ∈ st.2 ∨ (clickSeq f st cs).1.bombed = true) := by
  intro cs
  induction cs with
  | nil => intro st t ht _; rw [clickSeq_nil] at ht; exact Or.inl ht
  | cons c cs ih =>
    intro st t ht hs
    rw [clickSeq_cons] at ht ⊢
    rcases ih (clickStep f st c) t ht hs with hmem | hbomb
    · rw [clickStep_eq, List.mem_append] at hmem
      rcases hmem with hmem | hmem
      · exact Or.inl hmem
      · right
        have hbomb1 := hf st.1 c.1 c.2 t hmem hs
        have hext : Ext (clickStep f st c).1 (clickSeq f (clickStep f st c) cs).1 :=
          clickSeq_ext f cs _
        apply hext.2.2.2.2.2.2
        rw [clickStep_eq]
        exact hbomb1
    · exact Or.inr hbomb

theorem clickFuel_sentinel : ∀ (f : Nat) (b : Board) (x y : Nat)
    (t : Nat × Nat × Int), t ∈ (clickFuel f b x y).2 → t.2.2 = -1 →
    (clickFuel f b x y).1.bombed = true := by
  intro f
  induction f with
  | zero => intro b x y t ht _; simp [clickFuel] at ht
  | succ f ih =>
    intro b x y t ht hs
    by_cases hguard : (b.bombed || b.pressed x y || b.flagged x y) = true
    · rw [clickFuel_succ, if_pos hguard] at ht
      simp at ht
    · by_cases hmine : b.mine x y = true
      · rw [clickFuel_succ, if_neg hguard, if_pos hmine]
      · rw [Bool.not_eq_true] at hmine
        have hhead : ∀ w z : Nat, ((w, z, (b.counts w z : Int)) : Nat × Nat × Int).2.2 ≠ -1 := by
          intro w z
          have := Int.natCast_nonneg (b.counts w z)
          simp only
          omega
        by_cases hzero0 : b.counts x y = 0
        · have heq : clickFuel (f + 1) b x y =
              clickSeq f (press b x y, [(x, y, (b.counts x y : Int))])
                (nbrs b.W b.H x y) := by
            rw [clickFuel_succ, if_neg hguard, hmine]
            simp only [Bool.false_eq_true, if_false, if_pos hzero0]
          rw [heq] at ht ⊢
          rcases clickSeq_sentinel_of f ih (nbrs b.W b.H x y) _ t ht hs with hmem | hbomb
          · simp only [List.mem_singleton] at hmem
            subst hmem
            exact absurd hs (hhead x y)
          · exact hbomb
        · have heq : clickFuel (f + 1) b x y =
              (press b x y, [(x, y, (b.counts x y : Int))]) := by
            rw [clickFuel_succ, if_neg hguard, hmine]
            simp only [Bool.false_eq_true, if_false, if_neg hzero0]
          rw [heq] at ht
          simp only [List.mem_singleton] at ht
          subst ht
          exact absurd hs (hhead x y)

theorem roundReveals_acc : ∀ (cs : List (Nat × Nat)) (b : Board)
    (acc : List (Nat × Nat × Int)),
    cs.foldl (fun st c => let r := click st.1 c.1 c.2; (r.1, st.2 ++ r.2)) (b, acc) =
      ((roundReveals b cs).1, acc ++ (roundReveals b cs).2) := by
  intro cs
  induction cs with
  | nil => intro b acc; simp [roundReveals]
  | cons c cs ih =>
    intro b acc
    show cs.foldl _ ((click b c.1 c.2).1, acc ++ (click b c.1 c.2).2) = _
    rw [ih (click b c.1 c.2).1 (acc ++ (click b c.1 c.2).2)]
    have hRR : roundReveals b (c :: cs) =
        ((roundReveals (click b c.1 c.2).1 cs).1,
          ([] ++ (click b c.1 c.2).2) ++ (roundReveals (click b c.1 c.2).1 cs).2) := by
      show cs.foldl _ ((click b c.1 c.2).1, [] ++ (click b c.1 c.2).2) = _
      rw [ih (click b c.1 c.2).1 ([] ++ (click b c.1 c.2).2)]
    rw [hRR]
    simp

theorem roundReveals_cons (b : Board) (c : Nat × Nat) (cs : List (Nat × Nat)) :
    roundReveals b (c :: cs) =
      ((roundReveals (click b c.1 c.2).1 cs).1,
        (click b c.1 c.2).2 ++ (roundReveals (click b c.1 c.2).1 cs).2) := by
  show cs.foldl _ ((click b c.1 c.2).1, [] ++ (click b c.1 c.2).2) = _
  rw [roundReveals_acc cs (click b c.1 c.2).1 ([] ++ (click b c.1 c.2).2)]
  simp

theorem roundReveals_ext : ∀ (cs : List (Nat × Nat)) (b : Board),
    Ext b (roundReveals b cs).1 := by
  intro cs
  induction cs with
  | nil => intro b; exact ext_refl b
  | cons c cs ih =>
    intro b
    rw [roundReveals_cons]
    exact ext_trans (click_ext b c.1 c.2) (ih (click b c.1 c.2).1)

theorem roundReveals_sentinel : ∀ (cs : List (Nat × Nat)) (b : Board)
    (t : Nat × Nat × Int), t ∈ (roundReveals b cs).2 → t.2.2 = -1 →
    (roundReveals b cs).1.bombed = true := by
  intro cs
  induction cs with
  | nil => intro b t ht _; simp [roundReveals] at ht
  | cons c cs ih =>
    intro b t ht hs
    rw [roundReveals_cons] at ht ⊢
    simp only [List.mem_append] at ht
    rcases ht with hmem | hmem
    · have hbomb : (click b c.1 c.2).1.bombed = true :=
        clickFuel_sentinel _ b c.1 c.2 t hmem hs
      exact (roundReveals_ext cs (click b c.1 c.2).1).2.2.2.2.2.2 hbomb
    · exact ih (click b c.1 c.2).1 t hmem hs

/-- `revealLoop` threads the same boards as `roundReveals` and logs exactly
the triples the reveals produce. -/
theorem revealLoop_eq : ∀ (cs : List (Nat × Nat)) (b : Board) (s : Solver)
    (acc : List (Nat × Nat × Int)),
    (revealLoop (b, s, acc) cs).1 = (roundReveals b cs).1 ∧
    (revealLoop (b, s, acc) cs).2.2 = acc ++ (roundReveals b cs).2 := by
  intro cs
  induction cs with
  | nil => intro b s acc; exact ⟨rfl, by simp [revealLoop, roundReveals]⟩
  | cons c cs ih =>
    intro b s acc
    have hstep : revealLoop (b, s, acc) (c :: cs) =
        revealLoop ((click b c.1 c.2).1,
          (click b c.1 c.2).2.foldl (fun s2 t => add_constraint s2 t.1 t.2.1 t.2.2) s,
          acc ++ (click b c.1 c.2).2) cs := rfl
    rw [hstep, roundReveals_cons]
    obtain ⟨h1, h2⟩ := ih (click b c.1 c.2).1
      ((click b c.1 c.2).2.foldl (fun s2 t => add_constraint s2 t.1 t.2.1 t.2.2) s)
      (acc ++ (click b c.1 c.2).2)
    refine ⟨h1, ?_⟩
    rw [h2]
    simp

theorem flagFold_bombed : ∀ (fl : List (Nat × Nat)) (b : Board),
    (fl.foldl (fun bb c => flag bb c.1 c.2) b).bombed = b.bombed := by
  intro fl
  induction fl with
  | nil => intro b; rfl
  | cons c fl ih =>
    intro b
    show (fl.foldl _ (flag b c.1 c.2)).bombed = _
    rw [ih (flag b c.1 c.2), (flag_ext_static b c.1 c.2).2.2.2.2.2.1]

/-- C1 (amended): in a round that starts on a live board, the list of
`addConstraint` calls is exactly the list of all triples returned by the
round's reveals — the loss sentinel `(x, y, -1)` included, since `on_loop`
has no check for it.  A sentinel among the calls implies the board has been
marked lost by `reveal`, and the orchestrator reacts only at the start of
the *next* round, which then stops the game and makes no calls. -/
theorem c1_amended (b : Board) (s : Solver) (e : Nat → Nat → ℚ)
    (hb : b.bombed = false) :
    (onLoop b s e).calls = (roundReveals b (get_next s e).2.1).2 ∧
    (∀ t ∈ (onLoop b s e).calls, t.2.2 = -1 → (onLoop b s e).board.bombed = true) ∧
    (onLoop b s e).running = true ∧
    (∀ (b2 : Board) (s2 : Solver) (e2 : Nat → Nat → ℚ), b2.bombed = true →
      (onLoop b2 s2 e2).running = false ∧ (onLoop b2 s2 e2).calls = []) := by
  have honLoop : onLoop b s e =
      ⟨((get_next s e).2.2).foldl (fun bb c => flag bb c.1 c.2)
          (revealLoop (b, (get_next s e).1, []) (get_next s e).2.1).1,
        (revealLoop (b, (get_next s e).1, []) (get_next s e).2.1).2.1,
        (revealLoop (b, (get_next s e).1, []) (get_next s e).2.1).2.2, true⟩ := by
    rw [onLoop, if_neg (by rw [hb]; simp)]
  obtain ⟨hb1, hc1⟩ := revealLoop_eq (get_next s e).2.1 b (get_next s e).1 []
  refine ⟨?_, ?_, ?_, ?_⟩
  · rw [honLoop]
    rw [hc1]
    simp
  · intro t ht hs
    rw [honLoop] at ht ⊢
    simp only at ht ⊢
    rw [hc1] at ht
    simp only [List.nil_append] at ht
    rw [flagFold_bombed, hb1]
    exact roundReveals_sentinel (get_next s e).2.1 b t ht hs
  · rw [honLoop]
  · intro b2 s2 e2 h2
    constructor
    · rw [onLoop, if_pos (by rw [h2])]
    · rw [onLoop, if_pos (by rw [h2])]

/-- A shuffle order for a 5×1 board whose first candidate is its only
non-corner cell `(2, 0)`, so `create 5 1 1` mines exactly that cell. -/
def permB : List (Nat × Nat) :=
  (2, 0) :: (candidates 5 1).erase (2, 0)

/-- The 5×1 one-mine board with its mine at `(2, 0)`. -/
def bC1 : Board :=
  create 5 1 1 permB

/-- A fresh solver for the 5×1 board. -/
def sC1 : Solver :=
  initSolver 5 1 1

/-- A solve result that is stable (equal to the uniform initial
`last_solution` value `1/5`) exactly at the mine column. -/
def eC1 : Nat → Nat → ℚ :=
  fun i _ => if i = 2 then 1 / 5 else 1 / 2

theorem getNextAux_C1 :
    getNextAux sC1 eC1 (cellOrder 5 1) 1 [] [] = .early (2, 0) := by
  have hco : cellOrder 5 1 = [(0, 0), (1, 0), (2, 0), (3, 0), (4, 0)] := by decide
  rw [hco]
  norm_num [getNextAux, sC1, eC1, initSolver, eps, abs_lt]

theorem get_next_C1 :
    (get_next sC1 eC1).2.1 = [(2, 0)] ∧ (get_next sC1 eC1).2.2 = [] := by
  have h : getNextAux sC1 eC1 (cellOrder sC1.W sC1.H) 1 [] [] = .early (2, 0) :=
    getNextAux_C1
  constructor <;> simp [get_next, h]

/-- C1 (counterexample): a full orchestrated round on the live 5×1 board: the
solver decides to click the mine cell `(2, 0)`, the reveal returns the loss
sentinel `(2, 0, -1)`, and `on_loop` *does* pass that sentinel triple to
`add_constraint` and finishes the round still running (the loss only stops
the next round), contradicting the claim that the sentinel is excluded and
the round terminates. -/
theorem c1_counterexample :
    bC1.bombed = false ∧
    ((2 : Nat), (0 : Nat), (-1 : Int)) ∈ (onLoop bC1 sC1 eC1).calls ∧
    (onLoop bC1 sC1 eC1).running = true ∧
    (onLoop bC1 sC1 eC1).board.bombed = true := by
  have hclicks := get_next_C1.1
  have hflags := get_next_C1.2
  have honLoop : onLoop bC1 sC1 eC1 =
      ⟨((get_next sC1 eC1).2.2).foldl (fun bb c => flag bb c.1 c.2)
          (revealLoop (bC1, (get_next sC1 eC1).1, []) (get_next sC1 eC1).2.1).1,
        (revealLoop (bC1, (get_next sC1 eC1).1, []) (get_next sC1 eC1).2.1).2.1,
        (revealLoop (bC1, (get_next sC1 eC1).1, []) (get_next sC1 eC1).2.1).2.2,
        true⟩ := by
    rw [onLoop, if_neg (by show ¬bC1.bombed = true; rw [show bC1.bombed = false from rfl]; simp)]
  obtain ⟨hb1, hc1⟩ := revealLoop_eq (get_next sC1 eC1).2.1 bC1 (get_next sC1 eC1).1 []
  have hRR2 : (roundReveals bC1 [(2, 0)]).2 = [(2, 0, -1)] := by decide
  have hRR1 : (roundReveals bC1 [(2, 0)]).1.bombed = true := by decide
  refine ⟨rfl, ?_, ?_, ?_⟩
  · rw [honLoop]
    simp only
    rw [hc1, hclicks, hRR2]
    simp
  · rw [honLoop]
  · rw [honLoop]
    simp only
    rw [hflags]
    simp only [List.foldl_nil]
    rw [hb1, hclicks]
    exact hRR1

/-- Witness for C1 on the 5×1 board and solver decision above. -/
theorem c1_amended_witness :
    bC1.bombed = false ∧
    ((onLoop bC1 sC1 eC1).calls = (roundReveals bC1 (get_next sC1 eC1).2.1).2 ∧
      (∀ t ∈ (onLoop bC1 sC1 eC1).calls, t.2.2 = -1 →
        (onLoop bC1 sC1 eC1).board.bombed = true) ∧
      (onLoop bC1 sC1 eC1).running = true ∧
      (∀ (b2 : Board) (s2 : Solver) (e2 : Nat → Nat → ℚ), b2.bombed = true →
        (onLoop b2 s2 e2).running = false ∧ (onLoop b2 s2 e2).calls = [])) :=
  ⟨rfl, c1_amended bC1 sC1 eC1 rfl⟩

/-! ## Claim C4: last_solution is never updated -/

/-- C4 (code bug): `get_next` never assigns `last_solution`, so after a call
it still holds the value from construction — not the estimate just computed
by the solve, contradicting both the specification and the attribute's own
docstring ("Solution values from previous iteration").  Shown in general and
evaluated at a fresh 2×2 solver where the solve returns `1/2` everywhere
while `last_solution` stays at the initial uniform `1/4`. -/
theorem c4_code_bug :
    (∀ (s : Solver) (e : Nat → Nat → ℚ),
      (get_next s e).1.last_solution = s.last_solution) ∧
    (get_next (initSolver 2 2 1) (fun _ _ => 1 / 2)).1.last_solution 0 0 = 1 / 4 ∧
    ((1 / 4 : ℚ) ≠ (fun _ _ => (1 / 2 : ℚ)) 0 0) := by
  have hinv : ∀ (s : Solver) (e : Nat → Nat → ℚ),
      (get_next s e).1.last_solution = s.last_solution := by
    intro s e
    rw [get_next]
    split <;> rfl
  refine ⟨hinv, ?_, by norm_num⟩
  rw [hinv]
  show ((1 : Nat) : ℚ) / (((2 : Nat) : ℚ) * ((2 : Nat) : ℚ)) = 1 / 4
  norm_num

/-! ## Claim C8: the min/tie branches skip the flag check -/

theorem minBefore_nil (s : Solver) (e : Nat → Nat → ℚ) (start : ℚ) :
    minBefore s e [] start = start :=
  rfl

theorem minBefore_cons (s : Solver) (e : Nat → Nat → ℚ) (d : Nat × Nat)
    (l : List (Nat × Nat)) (start : ℚ) :
    minBefore s e (d :: l) start =
      minBefore s e l
        (if d ∉ s.clicked ∧ e d.1 d.2 < start then e d.1 d.2 else start) :=
  rfl

theorem getNextAux_op_mono (s : Solver) (e : Nat → Nat → ℚ) :
    ∀ (l : List (Nat × Nat)) (mp : ℚ) (zp op zp2 op2 : List (Nat × Nat)),
      getNextAux s e l mp zp op = .normal zp2 op2 → ∀ c ∈ op, c ∈ op2 := by
  intro l
  induction l with
  | nil =>
    intro mp zp op zp2 op2 h c hc
    cases h
    exact hc
  | cons d l ih =>
    intro mp zp op zp2 op2 h c hc
    simp only [getNextAux] at h
    split_ifs at h with h1 h2 h3 h4 h5 h6 <;>
      first
        | exact AuxRes.noConfusion h
        | exact ih _ _ _ _ _ h c hc
        | exact ih _ _ _ _ _ h c (List.mem_append_left _ hc)

/-- The key loop property behind C8: a cell reaching the flag check — being
in `clicked`, or neither undercutting nor tying the running minimum at its
turn — with an estimate within ε of 1 and not yet flagged, ends up in
`one_pos`. -/
theorem getNextAux_flag_reached (s : Solver) (e : Nat → Nat → ℚ) (c : Nat × Nat)
    (l2 : List (Nat × Nat)) :
    ∀ (l1 : List (Nat × Nat)) (mp : ℚ) (zp op zp2 op2 : List (Nat × Nat)),
      getNextAux s e (l1 ++ c :: l2) mp zp op = .normal zp2 op2 →
      c ∉ s.flagged → |e c.1 c.2 - 1| < eps →
      (c ∈ s.clicked ∨
        (¬(e c.1 c.2 < minBefore s e l1 mp) ∧
          ¬(|e c.1 c.2 - minBefore s e l1 mp| < eps))) →
      c ∈ op2 := by
  intro l1
  induction l1 with
  | nil =>
    intro mp zp op zp2 op2 h hfl hnear hcond
    simp only [List.nil_append, getNextAux] at h
    by_cases hcl : c ∈ s.clicked
    · rw [if_neg (not_not_intro hcl), if_pos ⟨hfl, hnear⟩] at h
      exact getNextAux_op_mono s e l2 _ _ _ _ _ h c
        (List.mem_append_right _ (List.mem_singleton.mpr rfl))
    · rcases hcond with hc2 | ⟨hlt, htie⟩
      · exact absurd hc2 hcl
      · rw [minBefore_nil] at hlt htie
        rw [if_pos hcl] at h
        by_cases hst : |e c.1 c.2 - s.last_solution c.1 c.2| < eps
        · rw [if_pos hst] at h
          exact AuxRes.noConfusion h
        · rw [if_neg hst, if_neg hlt, if_neg htie, if_pos ⟨hfl, hnear⟩] at h
          exact getNextAux_op_mono s e l2 _ _ _ _ _ h c
            (List.mem_append_right _ (List.mem_singleton.mpr rfl))
  | cons d l1 ih =>
    intro mp zp op zp2 op2 h hfl hnear hcond
    simp only [List.cons_append, getNextAux] at h
    rw [minBefore_cons] at hcond
    by_cases hdcl : d ∈ s.clicked
    · rw [if_neg (not_not_intro hdcl)] at h
      have hstep : (if d ∉ s.clicked ∧ e d.1 d.2 < mp then e d.1 d.2 else mp) = mp := by
        rw [if_neg]
        rintro ⟨hd, _⟩
        exact hd hdcl
      rw [hstep] at hcond
      by_cases hdf : d ∉ s.flagged ∧ |e d.1 d.2 - 1| < eps
      · rw [if_pos hdf] at h
        exact ih _ _ _ _ _ h hfl hnear hcond
      · rw [if_neg hdf] at h
        exact ih _ _ _ _ _ h hfl hnear hcond
    · rw [if_pos hdcl] at h
      by_cases hst : |e d.1 d.2 - s.last_solution d.1 d.2| < eps
      · rw [if_pos hst] at h
        exact AuxRes.noConfusion h
      · rw [if_neg hst] at h
        by_cases hlt : e d.1 d.2 < mp
        · rw [if_pos hlt] at h
          have hstep : (if d ∉ s.clicked ∧ e d.1 d.2 < mp then e d.1 d.2 else mp) =
              e d.1 d.2 := if_pos ⟨hdcl, hlt⟩
          rw [hstep] at hcond
          exact ih _ _ _ _ _ h hfl hnear hcond
        · rw [if_neg hlt] at h
          have hstep : (if d ∉ s.clicked ∧ e d.1 d.2 < mp then e d.1 d.2 else mp) =
              mp := by
            rw [if_neg]
            rintro ⟨_, hx⟩
            exact hlt hx
          rw [hstep] at hcond
          by_cases htie : |e d.1 d.2 - mp| < eps
          · rw [if_pos htie] at h
            exact ih _ _ _ _ _ h hfl hnear hcond
          · rw [if_neg htie] at h
            by_cases hdf : d ∉ s.flagged ∧ |e d.1 d.2 - 1| < eps
            · rw [if_pos hdf] at h
              exact ih _ _ _ _ _ h hfl hnear hcond
            · rw [if_neg hdf] at h
              exact ih _ _ _ _ _ h hfl hnear hcond

/-- C8 (amended): in a call of `get_next` that does not return early, a cell
not in `flaggedSet` whose estimate is within ε of 1 is included in the
returned flag set *unless* it lies outside `clickedSet` and its estimate
undercuts or ties (within ε) the running minimum at its turn — in that case
the min/tie branch `continue`s past the flag check and the cell is dropped.
The inclusion holds for every cell that is in `clickedSet` or fails both
minimum comparisons. -/
theorem c8_amended (s : Solver) (e : Nat → Nat → ℚ) (l1 : List (Nat × Nat))
    (c : Nat × Nat) (l2 : List (Nat × Nat)) (zp op : List (Nat × Nat))
    (hsplit : cellOrder s.W s.H = l1 ++ c :: l2)
    (hnormal : getNextAux s e (cellOrder s.W s.H) 1 [] [] = .normal zp op)
    (hfl : c ∉ s.flagged) (hnear : |e c.1 c.2 - 1| < eps)
    (hcond : c ∈ s.clicked ∨
      (¬(e c.1 c.2 < minBefore s e l1 1) ∧
        ¬(|e c.1 c.2 - minBefore s e l1 1| < eps))) :
    c ∈ op ∧ (get_next s e).2.2 = op := by
  constructor
  · rw [hsplit] at hnormal
    exact getNextAux_flag_reached s e c l2 l1 1 [] [] zp op hnormal hfl hnear hcond
  · simp [get_next, hnormal]

/-- The fresh 2×1 one-mine solver: its uniform initial estimate is `1/2`. -/
def s8w : Solver :=
  initSolver 2 1 1

/-- Solve result with the near-1 cell second: it reaches the flag check. -/
def e8w : Nat → Nat → ℚ :=
  fun i _ => if i = 0 then 1 / 5 else 1 - 1 / 2000000

theorem getNextAux_w8 :
    getNextAux s8w e8w (cellOrder 2 1) 1 [] [] = .normal [(0, 0)] [(1, 0)] := by
  have hco : cellOrder 2 1 = [(0, 0), (1, 0)] := by decide
  rw [hco]
  norm_num [getNextAux, s8w, e8w, initSolver, eps, abs_lt]

/-- Witness for C8: on `s8w` with `e8w`, the near-1 cell `(1, 0)` fails both
minimum comparisons at its turn (running minimum `1/5`) and is flagged. -/
theorem c8_amended_witness :
    cellOrder s8w.W s8w.H = [(0, 0)] ++ (1, 0) :: [] ∧
    (1, 0) ∉ s8w.flagged ∧ |e8w 1 0 - 1| < eps ∧
    (¬(e8w 1 0 < minBefore s8w e8w [(0, 0)] 1) ∧
      ¬(|e8w 1 0 - minBefore s8w e8w [(0, 0)] 1| < eps)) ∧
    ((1, 0) ∈ [(1, 0)] ∧ (get_next s8w e8w).2.2 = [(1, 0)]) := by
  have hmb : minBefore s8w e8w [(0, 0)] 1 = 1 / 5 := by
    rw [minBefore_cons, minBefore_nil, if_pos]
    · norm_num [e8w]
    · constructor
      · decide
      · norm_num [e8w]
  have hnear : |e8w 1 0 - 1| < eps := by
    rw [abs_lt]
    constructor <;> norm_num [e8w, eps]
  have hcond : ¬(e8w 1 0 < minBefore s8w e8w [(0, 0)] 1) ∧
      ¬(|e8w 1 0 - minBefore s8w e8w [(0, 0)] 1| < eps) := by
    rw [hmb]
    constructor
    · norm_num [e8w]
    · rw [abs_lt]
      norm_num [e8w, eps]
  exact ⟨by decide, by decide, hnear, hcond,
    c8_amended s8w e8w [(0, 0)] (1, 0) [] [(0, 0)] [(1, 0)] (by decide)
      getNextAux_w8 (by decide) hnear (Or.inr hcond)⟩

/-- Solve result with the near-1 cell first: it sets the running minimum. -/
def e8c : Nat → Nat → ℚ :=
  fun i _ => if i = 0 then 1 - 1 / 2000000 else 1 / 5

/-- C8 (counterexample): with `e8c` the first cell `(0, 0)` has estimate
within ε of 1 and is not flagged, the loop does not return early — yet the
returned flag set is empty, because `(0, 0)` set the running minimum (the
initial minimum is 1 and `1 - 1/2000000 < 1`) and the `continue` skipped its
flag check. -/
theorem c8_counterexample :
    getNextAux s8w e8c (cellOrder 2 1) 1 [] [] = .normal [(1, 0)] [] ∧
    (0, 0) ∉ s8w.flagged ∧ |e8c 0 0 - 1| < eps ∧
    (get_next s8w e8c).2.2 = [] := by
  have haux : getNextAux s8w e8c (cellOrder 2 1) 1 [] [] = .normal [(1, 0)] [] := by
    have hco : cellOrder 2 1 = [(0, 0), (1, 0)] := by decide
    rw [hco]
    norm_num [getNextAux, s8w, e8c, initSolver, eps, abs_lt]
  have haux2 : getNextAux s8w e8c (cellOrder s8w.W s8w.H) 1 [] [] =
      .normal [(1, 0)] [] := haux
  refine ⟨haux, by decide, ?_, by simp [get_next, haux2]⟩
  rw [abs_lt]
  constructor <;> norm_num [e8c, eps]

/-! ## Claim C9: out-of-range coordinates -/

theorem pyIdx_none {n : Nat} {i : Int} (h : i < -(n : Int) ∨ (n : Int) ≤ i) :
    pyIdx n i = none := by
  rw [pyIdx]
  rcases h with h | h
  · rw [if_neg (by omega), if_neg (by omega)]
  · rw [if_neg (by omega), if_neg (by omega)]

theorem pyIdx_some {n : Nat} {i : Int} (h1 : -(n : Int) ≤ i) (h2 : i < (n : Int)) :
    pyIdx n i = some (wrapIdx n i) := by
  rw [pyIdx, wrapIdx]
  by_cases h0 : 0 ≤ i
  · rw [if_pos ⟨h0, h2⟩, if_neg (by omega)]
  · rw [if_neg (by omega), if_pos ⟨h1, by omega⟩, if_pos (by omega)]

theorem wrapIdx_lt {n : Nat} {i : Int} (h1 : -(n : Int) ≤ i) (h2 : i < (n : Int)) :
    wrapIdx n i < n := by
  rw [wrapIdx]
  split <;> omega

/-- Evaluation of `pyClick` on a live board once both indices resolve. -/
theorem pyClick_eval {b : Board} {x y : Int} {xi yi : Nat} (hbomb : b.bombed = false)
    (hsx : pyIdx b.W x = some xi) (hsy : pyIdx b.H y = some yi) :
    pyClick b x y =
      (if b.pressed xi yi || b.flagged xi yi then some (b, [])
       else if b.mine xi yi then some ({ b with bombed := true }, [(x, y, -1)])
       else if b.counts xi yi = 0 then
         some ((clickSeq (b.W * b.H + 1) (press b xi yi, []) (intNbrs b.W b.H x y)).1,
           (x, y, (b.counts xi yi : Int)) ::
             (clickSeq (b.W * b.H + 1) (press b xi yi, []) (intNbrs b.W b.H x y)).2.map
               (fun t => ((t.1 : Int), (t.2.1 : Int), t.2.2)))
       else some (press b xi yi, [(x, y, (b.counts xi yi : Int))])) := by
  rw [pyClick, if_neg (by rw [hbomb]; simp), hsy, hsx]

/-- C9 (amended): the code does not uniformly fail loudly.  When the board is
lost, reveal and flag return silently whatever the coordinates.  On a live
board, an index at or beyond the list length (or below `-len`) raises an
index error (`none`) with no state produced — the row index is checked
first — but a *negative* index within `-len..-1` silently wraps around, and
the call operates on the wrapped in-bounds cell: flagging toggles it and
revealing a fresh safe wrapped cell presses it. -/
theorem c9_amended (b : Board) (x y : Int) :
    (b.bombed = true → pyFlag b x y = some b ∧ pyClick b x y = some (b, [])) ∧
    (b.bombed = false → (y < -(b.H : Int) ∨ (b.H : Int) ≤ y) →
      pyFlag b x y = none ∧ pyClick b x y = none) ∧
    (b.bombed = false → -(b.H : Int) ≤ y → y < (b.H : Int) →
      (x < -(b.W : Int) ∨ (b.W : Int) ≤ x) →
      pyFlag b x y = none ∧ pyClick b x y = none) ∧
    (b.bombed = false → -(b.W : Int) ≤ x → x < (b.W : Int) →
      -(b.H : Int) ≤ y → y < (b.H : Int) →
      pyFlag b x y = some (flag b (wrapIdx b.W x) (wrapIdx b.H y)) ∧
      wrapIdx b.W x < b.W ∧ wrapIdx b.H y < b.H ∧
      (b.pressed (wrapIdx b.W x) (wrapIdx b.H y) = false →
        b.flagged (wrapIdx b.W x) (wrapIdx b.H y) = false →
        b.mine (wrapIdx b.W x) (wrapIdx b.H y) = false →
        ∀ r, pyClick b x y = some r →
          r.1.pressed (wrapIdx b.W x) (wrapIdx b.H y) = true)) := by
  refine ⟨?_, ?_, ?_, ?_⟩
  · intro hbomb
    constructor
    · rw [pyFlag, if_pos (by rw [hbomb])]
    · rw [pyClick, if_pos (by rw [hbomb])]
  · intro hbomb hoob
    have hnone : pyIdx b.H y = none := pyIdx_none hoob
    constructor
    · rw [pyFlag, if_neg (by rw [hbomb]; simp), hnone]
    · rw [pyClick, if_neg (by rw [hbomb]; simp), hnone]
  · intro hbomb hy1 hy2 hoob
    have hsome : pyIdx b.H y = some (wrapIdx b.H y) := pyIdx_some hy1 hy2
    have hnone : pyIdx b.W x = none := pyIdx_none hoob
    constructor
    · rw [pyFlag, if_neg (by rw [hbomb]; simp), hsome, hnone]
    · rw [pyClick, if_neg (by rw [hbomb]; simp), hsome, hnone]
  · intro hbomb hx1 hx2 hy1 hy2
    have hsx : pyIdx b.W x = some (wrapIdx b.W x) := pyIdx_some hx1 hx2
    have hsy : pyIdx b.H y = some (wrapIdx b.H y) := pyIdx_some hy1 hy2
    refine ⟨?_, wrapIdx_lt hx1 hx2, wrapIdx_lt hy1 hy2, ?_⟩
    · rw [pyFlag, if_neg (by rw [hbomb]; simp), hsy, hsx]
    · intro hpr hfl hmi r hr
      rw [pyClick_eval hbomb hsx hsy] at hr
      rw [hpr, hfl, hmi] at hr
      simp only [Bool.or_self, Bool.false_eq_true, if_false] at hr
      have hpressed : (press b (wrapIdx b.W x) (wrapIdx b.H y)).pressed
          (wrapIdx b.W x) (wrapIdx b.H y) = true :=
        (press_pressed b _ _ _ _).mpr (Or.inl rfl)
      by_cases hz : b.counts (wrapIdx b.W x) (wrapIdx b.H y) = 0
      · rw [if_pos hz] at hr
        cases hr.symm
        exact (clickSeq_ext _ _ _).2.2.2.2.2.1 _ _ hpressed
      · rw [if_neg hz] at hr
        cases hr.symm
        exact hpressed

/-- A plain 3×3 mine-free board with nothing pressed or flagged. -/
def b9 : Board where
  W := 3
  H := 3
  mine := fun _ _ => false
  pressed := fun _ _ => false
  flagged := fun _ _ => false
  counts := fun _ _ => 0
  bombed := false
  remaining := 9
  flagsRemaining := 0

/-- C9 (counterexample): `flag(0, -1)` on a live 3×3 board does not fail —
Python's negative indexing silently wraps the row to `2`, and the call
toggles the flag of the in-bounds cell `(0, 2)`, modifying board state. -/
theorem c9_counterexample :
    ((-1 : Int) < 0) ∧
    pyFlag b9 0 (-1) = some (flag b9 0 2) ∧
    (flag b9 0 2).flagged 0 2 = true ∧ b9.flagged 0 2 = false := by
  refine ⟨by decide, ?_, by decide, rfl⟩
  have hsy : pyIdx b9.H (-1) = some 2 := by decide
  have hsx : pyIdx b9.W 0 = some 0 := by decide
  rw [pyFlag, if_neg (by show ¬b9.bombed = true; rw [show b9.bombed = false from rfl]; simp),
    hsy, hsx]

/-- Witness for C9, exercising all four regimes on the 3×3 board `b9` (and a
bombed copy of it): lost-board silence, row index error, column index error,
and the silent negative wrap. -/
theorem c9_amended_witness :
    ({ b9 with bombed := true }.bombed = true ∧
      pyFlag { b9 with bombed := true } 7 9 = some { b9 with bombed := true } ∧
      pyClick { b9 with bombed := true } 7 9 = some ({ b9 with bombed := true }, [])) ∧
    (b9.bombed = false ∧ pyFlag b9 0 3 = none ∧ pyClick b9 0 3 = none) ∧
    (b9.bombed = false ∧ pyFlag b9 5 1 = none ∧ pyClick b9 5 1 = none) ∧
    (b9.bombed = false ∧
      pyFlag b9 0 (-1) = some (flag b9 (wrapIdx b9.W 0) (wrapIdx b9.H (-1))) ∧
      wrapIdx b9.W 0 < b9.W ∧ wrapIdx b9.H (-1) < b9.H ∧
      (∀ r, pyClick b9 0 (-1) = some r →
        r.1.pressed (wrapIdx b9.W 0) (wrapIdx b9.H (-1)) = true)) := by
  have h1 := (c9_amended { b9 with bombed := true } 7 9).1 rfl
  have h2 := (c9_amended b9 0 3).2.1 rfl (Or.inr (by decide))
  have h3 := (c9_amended b9 5 1).2.2.1 rfl (by decide) (by decide) (Or.inr (by decide))
  have h4 := (c9_amended b9 0 (-1)).2.2.2 rfl (by decide) (by decide) (by decide) (by decide)
  exact ⟨⟨rfl, h1.1, h1.2⟩, ⟨rfl, h2.1, h2.2⟩, ⟨rfl, h3.1, h3.2⟩,
    ⟨rfl, h4.1, h4.2.1, h4.2.2.1, h4.2.2.2 rfl rfl rfl⟩⟩

/-! ## Claim C2: flood-fill correctness -/

/-- C2 (counterexample): on `bC2`, the cell `(3, 0)` lies in the maximal
8-connected zero-count region of the clicked cell `(0, 0)` (path through the
flagged cell `(2, 0)`), is itself neither revealed, flagged nor a mine — yet
clicking `(0, 0)` does not reveal it, because the flag at `(2, 0)` blocks the
cascade.  This refutes the claim that exactly the maximal region minus the
already-revealed-or-flagged cells is revealed. -/
theorem c2_counterexample :
    ZeroPath bC2 0 0 3 0 ∧ bC2.pressed 3 0 = false ∧ bC2.flagged 3 0 = false ∧
    bC2.mine 3 0 = false ∧ bC2.bombed = false ∧ bC2.counts 0 0 = 0 ∧
    bC2.pressed 0 0 = false ∧ bC2.flagged 0 0 = false ∧ bC2.mine 0 0 = false ∧
    consistentCounts bC2 ∧
    (click bC2 0 0).1.pressed 3 0 = false ∧ (3, 0) ∉ coords (click bC2 0 0).2 := by
  refine ⟨?_, rfl, by decide, rfl, rfl, rfl, rfl, by decide, rfl, ?_, by decide, by decide⟩
  · have h1 : ZeroPath bC2 0 0 1 0 :=
      ZeroPath.step ZeroPath.base rfl (by decide)
    have h2 : ZeroPath bC2 0 0 2 0 :=
      ZeroPath.step h1 rfl (by decide)
    exact ZeroPath.step h2 rfl (by decide)
  · intro u _ v _
    show bC2.counts u v = nbrMineCount bC2.mine bC2.W bC2.H u v
    simp [bC2, nbrMineCount]

/-- C2 (amended): on a consistent, un-bombed board, clicking a fresh,
unflagged, non-mine zero-count cell reveals exactly the cells reachable from
it through unrevealed, unflagged zero-count cells together with their
unrevealed, unflagged border (`ReachZ`); the returned triples list one cell
each with no repetition and carry the cell's neighbor count, and no reached
cell — hence no revealed cell — is a mine. -/
theorem c2_amended (b : Board) (x y : Nat) (hb : b.bombed = false)
    (hc : consistentCounts b) (hx : x < b.W) (hy : y < b.H)
    (hp : b.pressed x y = false) (hfl : b.flagged x y = false)
    (hm : b.mine x y = false) (hz : b.counts x y = 0) :
    (∀ u v, (click b x y).1.pressed u v = true ↔
      (b.pressed u v = true ∨ ReachZ b x y u v)) ∧
    (coords (click b x y).2).Nodup ∧
    (∀ u v, (u, v) ∈ coords (click b x y).2 ↔ ReachZ b x y u v) ∧
    (∀ t ∈ (click b x y).2, t.2.2 = (b.counts t.1 t.2.1 : Int)) ∧
    (∀ u v, ReachZ b x y u v → b.mine u v = false) ∧
    (click b x y).1.bombed = false := by
  have hO := clickFuel_outSpec (b.W * b.H + 1) b x y hb hc hx hy (Or.inr (Or.inr hm))
  have hsound := clickFuel_reach b x y (b.W * b.H + 1) b x y (ext_refl b)
    (Or.inr (Or.inr ReachZ.base))
  have hcompl := click_complete hb hc hx hy hp hfl hm
  have hcoords : ∀ u v, (u, v) ∈ coords (click b x y).2 ↔ ReachZ b x y u v := by
    intro u v
    constructor
    · intro hmem
      exact hsound (u, v) hmem
    · intro hrz
      have hpressed := hcompl u v hrz
      rcases (hO.2.1 u v).mp hpressed with hold | hnew
      · have := (reachZ_fresh hp hfl hrz).1
        rw [this] at hold; cases hold
      · exact hnew
  refine ⟨?_, hO.2.2.1, hcoords, hO.2.2.2.2.1, ?_, hO.1⟩
  · intro u v
    constructor
    · intro hpressed
      rcases (hO.2.1 u v).mp hpressed with hold | hnew
      · exact Or.inl hold
      · exact Or.inr (hsound (u, v) hnew)
    · intro hor
      rcases hor with hold | hrz
      · exact (click_ext b x y).2.2.2.2.2.1 u v hold
      · exact hcompl u v hrz
  · intro u v hrz
    exact reachZ_not_mine hc hx hy hm hrz

/-- Witness for C2: clicking the zero-count corner cell `(0, 0)` of the
5×5 one-mine demo board satisfies every hypothesis of `c2_amended`. -/
theorem c2_amended_witness :
    bDemo.bombed = false ∧ (0 : Nat) < bDemo.W ∧ (0 : Nat) < bDemo.H ∧
    bDemo.pressed 0 0 = false ∧ bDemo.flagged 0 0 = false ∧
    bDemo.mine 0 0 = false ∧ bDemo.counts 0 0 = 0 ∧
    ((∀ u v, (click bDemo 0 0).1.pressed u v = true ↔
      (bDemo.pressed u v = true ∨ ReachZ bDemo 0 0 u v)) ∧
    (coords (click bDemo 0 0).2).Nodup ∧
    (∀ u v, (u, v) ∈ coords (click bDemo 0 0).2 ↔ ReachZ bDemo 0 0 u v) ∧
    (∀ t ∈ (click bDemo 0 0).2, t.2.2 = (bDemo.counts t.1 t.2.1 : Int)) ∧
    (∀ u v, ReachZ bDemo 0 0 u v → bDemo.mine u v = false) ∧
    (click bDemo 0 0).1.bombed = false) :=
  ⟨rfl, by decide, by decide, rfl, rfl, by decide, by decide,
    c2_amended bDemo 0 0 rfl (fun _ _ _ _ => rfl) (by decide) (by decide)
      rfl rfl (by decide) (by decide)⟩

/-! ## Claim C5: the mine reveal and the terminal lost state -/

/-- C5 (confirmed): revealing an unrevealed, unflagged mine on an un-bombed
board sets the lost flag and returns exactly the `(x, y, -1)` sentinel; and
once the board is lost every reveal returns the empty list with the board
unchanged and every flag call leaves the board unchanged. -/
theorem c5_confirmed (b : Board) (x y : Nat) (hb : b.bombed = false)
    (hp : b.pressed x y = false) (hfl : b.flagged x y = false)
    (hm : b.mine x y = true) :
    click b x y = ({ b with bombed := true }, [(x, y, -1)]) ∧
    (∀ b2 : Board, b2.bombed = true → ∀ u v,
      click b2 u v = (b2, []) ∧ flag b2 u v = b2) := by
  constructor
  · rw [click, clickFuel_succ, hb, hp, hfl]
    simp only [Bool.or_self, Bool.false_or, Bool.false_eq_true, if_false, hm, if_true]
  · intro b2 h2 u v
    exact ⟨clickFuel_bombed _ b2 u v h2, flag_bombed b2 u v h2⟩

/-- Witness for C5 on the demo board: its mine cell is `(2, 2)`. -/
theorem c5_witness :
    bDemo.bombed = false ∧ bDemo.pressed 2 2 = false ∧
    bDemo.flagged 2 2 = false ∧ bDemo.mine 2 2 = true ∧
    (click bDemo 2 2 = ({ bDemo with bombed := true }, [(2, 2, -1)]) ∧
      (∀ b2 : Board, b2.bombed = true → ∀ u v,
        click b2 u v = (b2, []) ∧ flag b2 u v = b2)) :=
  ⟨rfl, rfl, rfl, by decide, c5_confirmed bDemo 2 2 rfl rfl rfl (by decide)⟩

/-! ## Claim C10: revealed cells are never mines -/

theorem runOps_not_mine : ∀ (ops : List Op) (b : Board),
    (∀ u v, b.pressed u v = true → b.mine u v = false) →
    ∀ u v, (runOps b ops).pressed u v = true → (runOps b ops).mine u v = false := by
  intro ops
  induction ops with
  | nil => intro b h u v hp; exact h u v hp
  | cons op ops ih =>
    intro b h u v
    have hstep : ∀ w z, (applyOp b op).pressed w z = true →
        (applyOp b op).mine w z = false := by
      intro w z hw
      cases op with
      | clickOp cx cy =>
        simp only [applyOp] at hw ⊢
        rw [(click_ext b cx cy).2.2.1]
        rcases clickFuel_not_mine _ b cx cy w z hw with hpr | hmi
        · exact h w z hpr
        · exact hmi
      | flagOp fx fy =>
        simp only [applyOp] at hw ⊢
        rw [(flag_ext_static b fx fy).2.2.1]
        rw [(flag_ext_static b fx fy).2.2.2.1] at hw
        exact h w z hw
    have : runOps b (op :: ops) = runOps (applyOp b op) ops := rfl
    rw [this]
    exact ih (applyOp b op) hstep u v

/-- C10 (confirmed): in every board state reachable from `create` by any
sequence of reveal and flag calls, every revealed cell is a non-mine cell.
The mine guard of `click` precedes the press in every (also recursive) call,
so no mine is ever marked revealed. -/
theorem c10_confirmed (W H m : Nat) (perm : List (Nat × Nat)) (ops : List Op)
    (hperm : perm.Perm (candidates W H)) :
    ∀ u v, (runOps (create W H m perm) ops).pressed u v = true →
      (runOps (create W H m perm) ops).mine u v = false := by
  refine runOps_not_mine ops (create W H m perm) ?_
  intro u v hp
  cases hp

/-- Witness for C10: reveal `(0, 0)` on a mine-free 2×2 board (its single
requested mine cannot be placed, every cell being corner-excluded); the
flood fill presses `(0, 0)` and the conclusion applies there. -/
theorem c10_witness :
    (candidates 2 2).Perm (candidates 2 2) ∧
    (runOps (create 2 2 1 (candidates 2 2)) [Op.clickOp 0 0]).pressed 0 0 = true ∧
    (runOps (create 2 2 1 (candidates 2 2)) [Op.clickOp 0 0]).mine 0 0 = false :=
  ⟨List.Perm.refl _, by decide,
    c10_confirmed 2 2 1 (candidates 2 2) [Op.clickOp 0 0] (List.Perm.refl _) 0 0
      (by decide)⟩

end MS
